import Mathlib

/-!
Verification of the PinataFS core: path canonicalization, prefix-based
authorization, and the permission/file record state machine, shallowly
embedded from `smart_contract/contracts/PermissionNFT.sol` (contracts
`PermissionNFT` and `PinataFS`) and from the TypeScript SDK's
`validatePathValue`.

Strings are modelled as lists of byte values (`List Nat`); addresses and
token ids as `Nat` (with `0` playing the role of `address(0)`); reverting
calls as `Except`/`Option` failures.
-/

namespace PinataFS

/-- Byte value of `'/'`. -/
def slashB : Nat := 47

/-- Byte value of `'.'`. -/
def dotB : Nat := 46

/-- The character classes accepted inside a segment by `_normalizePath`:
`A-Z`, `a-z`, `0-9`, `'-'` (45), `'_'` (95). -/
def legalBaseChar (c : Nat) : Bool :=
  decide ((65 ≤ c ∧ c ≤ 90) ∨ (97 ≤ c ∧ c ≤ 122) ∨ (48 ≤ c ∧ c ≤ 57) ∨ c = 45 ∨ c = 95)

/-- Loop state of the single-pass scanner in `_normalizePath`
(`normalized`/`normalizedLength`, `previousWasSlash`, `segmentLength`,
`segmentDotCount`, `segmentEndsWithDot`). -/
structure ScanState where
  normalized : List Nat
  previousWasSlash : Bool
  segmentLength : Nat
  segmentDotCount : Nat
  segmentEndsWithDot : Bool
deriving Repr, DecidableEq

/-- The `for` loop of `_normalizePath` over `input[1..]`, one byte at a time. -/
def scanLoop (allowDot : Bool) : List Nat → ScanState → Option ScanState
  | [], st => some st
  | c :: rest, st =>
    if c = slashB then
      if st.previousWasSlash then none
      else if 0 < st.segmentDotCount then none
      else scanLoop allowDot rest ⟨st.normalized ++ [slashB], true, 0, 0, false⟩
    else if legalBaseChar c then
      scanLoop allowDot rest
        ⟨st.normalized ++ [c], false, st.segmentLength + 1, st.segmentDotCount, false⟩
    else if c = dotB then
      if allowDot = false then none
      else if st.segmentLength = 0 then none
      else if 1 < st.segmentDotCount + 1 then none
      else scanLoop allowDot rest
        ⟨st.normalized ++ [dotB], false, st.segmentLength + 1, st.segmentDotCount + 1, true⟩
    else none

/-- Scanner state right after consuming the leading `'/'` of the input. -/
def initScanState : ScanState := ⟨[slashB], true, 0, 0, false⟩

/-- `_normalizePath(rawPath, allowDotInFinalSegment, allowRootOnly)`:
`none` models `revert InvalidPath()`. -/
def normalizePath (rawPath : List Nat) (allowDot allowRoot : Bool) : Option (List Nat) :=
  if rawPath.length = 0 ∨ rawPath.headI ≠ slashB then none
  else if rawPath.length = 1 then
    if allowRoot = false then none else some [slashB]
  else
    match scanLoop allowDot rawPath.tail initScanState with
    | none => none
    | some st =>
      if st.previousWasSlash then none
      else if st.segmentLength = 0 then none
      else if st.segmentEndsWithDot then none
      else if allowDot = false ∧ 0 < st.segmentDotCount then none
      else some st.normalized

/-- `_normalizeFilePath`. -/
def normalizeFilePath (path : List Nat) : Option (List Nat) :=
  normalizePath path true false

/-- `_normalizePrefixPath`. -/
def normalizePrefixPath (path : List Nat) : Option (List Nat) :=
  normalizePath path false true

/-- The element-by-element comparison loop of `_isPathInPrefix`
(`pathBytes[i] == prefixBytes[i]` for every index of the second list). -/
def bytesMatch : List Nat → List Nat → Bool
  | _, [] => true
  | [], _ :: _ => false
  | a :: as, b :: bs => (a == b) && bytesMatch as bs

/-- `_isPathInPrefix(path, prefix)`: strict subtree matching. -/
def isPathInPrefix (path pfx : List Nat) : Bool :=
  if pfx.length = 1 then
    decide (1 ≤ path.length) && (path.getD 0 0 == slashB)
  else if path.length < pfx.length then false
  else if !bytesMatch path pfx then false
  else if path.length = pfx.length then true
  else path.getD pfx.length 0 == slashB

/-- Modelled abstraction of `_hashString` (keccak256 of the raw string
bytes): the hash is treated as an injective encoding of the bytes, i.e.
hash equality coincides with byte-for-byte equality (keccak256
collision-resistance is assumed). -/
def hashString (value : List Nat) : List Nat := value

/-- `_containsPrefix(prefixes, prefixHash)`: linear scan by hash equality. -/
def containsPrefixHash (stored : List (List Nat)) (h : List Nat) : Bool :=
  stored.any (fun p => hashString p == h)

/-- Error selectors of the `PinataFS` contract. -/
inductive FsError
  | notOwner
  | invalidNftContract
  | invalidPath
  | unauthorizedPath
  | notTokenOwner
  | tokenWritesRevoked (nftContract tokenId : Nat)
  | emptyCid
  | fileNotFound
deriving Repr, DecidableEq

/-- External-chain environment: which addresses hold deployed code
(`account.code.length > 0`) and what `ownerOf(tokenId)` returns on each
contract (`none` = the call reverts / is unresolvable). -/
structure Chain where
  hasCode : Nat → Bool
  ownerOfResult : Nat → Nat → Option Nat

/-- `_ownerOfNftTokenNoRevert`: `try ownerOf ... catch { owner = address(0) }`. -/
def ownerOfNftTokenNoRevert (chain : Chain) (nftContract tokenId : Nat) : Nat :=
  (chain.ownerOfResult nftContract tokenId).getD 0

/-- Storage of the `PinataFS` contract. -/
structure FSState where
  owner : Nat
  tokenWriteRevoked : Nat → Nat → Bool
  tokenPrefixes : Nat → Nat → List (List Nat)
  files : List Nat → List Nat

/-- `_hasPathPermission`: true when the path matches any stored prefix. -/
def hasPathPermission (st : FSState) (nftContract tokenId : Nat) (path : List Nat) : Bool :=
  (st.tokenPrefixes nftContract tokenId).any (fun q => isPathInPrefix path q)

/-- The accumulation loop of `_replaceTokenPrefixes`: normalize each raw
prefix (failure reverts the whole call), skip hash-duplicates, push the
rest in order. -/
def buildPrefixList : List (List Nat) → List (List Nat) → Option (List (List Nat))
  | [], acc => some acc
  | p :: rest, acc =>
    match normalizePrefixPath p with
    | none => none
    | some validated =>
      if containsPrefixHash acc (hashString validated) then buildPrefixList rest acc
      else buildPrefixList rest (acc ++ [validated])

/-- `replaceTokenPrefixes` (external, `onlyOwner` then `_requireNftContract`
then `_replaceTokenPrefixes`). -/
def replaceTokenPrefixes (chain : Chain) (st : FSState) (caller nftContract tokenId : Nat)
    (rawList : List (List Nat)) : Except FsError FSState :=
  if caller ≠ st.owner then .error .notOwner
  else if !chain.hasCode nftContract then .error .invalidNftContract
  else
    match buildPrefixList rawList [] with
    | none => .error .invalidPath
    | some newList =>
      .ok { st with tokenPrefixes := fun c t =>
              if c = nftContract ∧ t = tokenId then newList else st.tokenPrefixes c t }

/-- `setTokenWriteRevoked` (external, `onlyOwner`). -/
def setTokenWriteRevoked (chain : Chain) (st : FSState) (caller nftContract tokenId : Nat)
    (revoked : Bool) : Except FsError FSState :=
  if caller ≠ st.owner then .error .notOwner
  else if !chain.hasCode nftContract then .error .invalidNftContract
  else if st.tokenWriteRevoked nftContract tokenId = revoked then .ok st
  else
    .ok { st with tokenWriteRevoked := fun c t =>
            if c = nftContract ∧ t = tokenId then revoked else st.tokenWriteRevoked c t }

/-- `transferOwnership` on `PinataFS` (external, `onlyOwner`). -/
def transferOwnership (st : FSState) (caller newOwner : Nat) : Except FsError FSState :=
  if caller ≠ st.owner then .error .notOwner
  else .ok { st with owner := newOwner }

/-- `writeFile(nftContract, tokenId, path, cid)` called by `caller`. -/
def writeFile (chain : Chain) (st : FSState) (caller nftContract tokenId : Nat)
    (path cid : List Nat) : Except FsError FSState :=
  if cid.length = 0 then .error .emptyCid
  else if !chain.hasCode nftContract then .error .invalidNftContract
  else if ownerOfNftTokenNoRevert chain nftContract tokenId ≠ caller then .error .notTokenOwner
  else if st.tokenWriteRevoked nftContract tokenId then
    .error (.tokenWritesRevoked nftContract tokenId)
  else
    match normalizeFilePath path with
    | none => .error .invalidPath
    | some validatedPath =>
      if !hasPathPermission st nftContract tokenId validatedPath then .error .unauthorizedPath
      else
        .ok { st with files := fun h =>
                if h = hashString validatedPath then cid else st.files h }

/-- `getFile(path)`: public read, no authorization. -/
def getFile (st : FSState) (path : List Nat) : Except FsError (List Nat) :=
  match normalizeFilePath path with
  | none => .error .invalidPath
  | some validatedPath =>
    let cid := st.files (hashString validatedPath)
    if cid.length = 0 then .error .fileNotFound else .ok cid

/-- `fileExists(path)`. -/
def fileExists (st : FSState) (path : List Nat) : Except FsError Bool :=
  match normalizeFilePath path with
  | none => .error .invalidPath
  | some validatedPath => .ok (decide (0 < (st.files (hashString validatedPath)).length))

/-- `canWritePath(nftContract, tokenId, account, path)`. -/
def canWritePath (chain : Chain) (st : FSState) (nftContract tokenId account : Nat)
    (path : List Nat) : Except FsError Bool :=
  if !chain.hasCode nftContract then .ok false
  else if st.tokenWriteRevoked nftContract tokenId then .ok false
  else if ownerOfNftTokenNoRevert chain nftContract tokenId ≠ account then .ok false
  else
    match normalizeFilePath path with
    | none => .error .invalidPath
    | some validatedPath => .ok (hasPathPermission st nftContract tokenId validatedPath)

/-! ### The client-side validator (TypeScript SDK, `validatePathValue`)

The SDK validator walks UTF-16 code units of a JavaScript string; we model
the string as its list of code-unit values and the validator as a `Bool`
(`false` models a thrown `Error`). -/

/-- Loop state of `validatePathValue` (`previousWasSlash`, `segmentLength`,
`segmentDotCount`, `segmentEndsWithDot`). -/
structure TsScanState where
  previousWasSlash : Bool
  segmentLength : Nat
  segmentDotCount : Nat
  segmentEndsWithDot : Bool
deriving Repr, DecidableEq

/-- The `for` loop of `validatePathValue` over `path[1..]`. -/
def tsLoop (allowDot : Bool) : List Nat → TsScanState → Option TsScanState
  | [], st => some st
  | c :: rest, st =>
    if c = slashB then
      if st.previousWasSlash then none
      else if 0 < st.segmentDotCount then none
      else tsLoop allowDot rest ⟨true, 0, 0, false⟩
    else if legalBaseChar c then
      tsLoop allowDot rest ⟨false, st.segmentLength + 1, st.segmentDotCount, false⟩
    else if c = dotB then
      if allowDot = false then none
      else if st.segmentLength = 0 then none
      else if 1 < st.segmentDotCount + 1 then none
      else tsLoop allowDot rest ⟨false, st.segmentLength + 1, st.segmentDotCount + 1, true⟩
    else none

/-- `validatePathValue(path, { allowDotInFinalSegment, allowRootOnly })`:
`true` iff the function returns without throwing. -/
def validatePathValue (path : List Nat) (allowDot allowRoot : Bool) : Bool :=
  if path.length = 0 ∨ path.headI ≠ slashB then false
  else if path.length = 1 then allowRoot
  else
    match tsLoop allowDot path.tail ⟨true, 0, 0, false⟩ with
    | none => false
    | some st =>
      if st.previousWasSlash then false
      else if st.segmentLength = 0 then false
      else if st.segmentEndsWithDot then false
      else if allowDot = false ∧ 0 < st.segmentDotCount then false
      else true

/-- `validateFilePath` (SDK wrapper). -/
def validateFilePath (path : List Nat) : Bool := validatePathValue path true false

/-- `validatePrefixPath` (SDK wrapper). -/
def validatePrefixPath (path : List Nat) : Bool := validatePathValue path false true

/-- UTF-8 encoding of one Unicode scalar value (what `bytes(string)` sees
on chain for one character of the source string). -/
def utf8Bytes (c : Char) : List Nat :=
  let n := c.toNat
  if n < 128 then [n]
  else if n < 2048 then [192 + n / 64, 128 + n % 64]
  else if n < 65536 then [224 + n / 4096, 128 + n / 64 % 64, 128 + n % 64]
  else [240 + n / 262144, 128 + n / 4096 % 64, 128 + n / 64 % 64, 128 + n % 64]

/-- UTF-16 encoding of one Unicode scalar value (what JavaScript string
indexing sees, one code unit per list element). -/
def utf16Units (c : Char) : List Nat :=
  let n := c.toNat
  if n < 65536 then [n]
  else [55296 + (n - 65536) / 1024, 56320 + (n - 65536) % 1024]

/-- Concatenated encoding of a character sequence. -/
def encodeWith (f : Char → List Nat) : List Char → List Nat
  | [] => []
  | c :: rest => f c ++ encodeWith f rest

/-- ASCII bytes of a Lean string literal (for concrete test inputs). -/
def strBytes (s : String) : List Nat := s.data.map Char.toNat

/-! ### The ownership token (`PermissionNFT` contract) -/

/-- Error selectors of `PermissionNFT` that `transferFrom` can raise. -/
inductive NftError
  | zeroAddress
  | tokenDoesNotExist (tokenId : Nat)
  | tokenSoulbound (tokenId : Nat)
  | incorrectOwner
  | notAuthorized
deriving Repr, DecidableEq

/-- Storage of the `PermissionNFT` contract relevant to ownership and
transfer (`_ownerOf`, `_tokenApprovals`, `_operatorApprovals`,
`tokenTransferable`, `_balanceOf`). -/
structure NftState where
  ownerOfTok : Nat → Nat
  tokenApprovals : Nat → Nat
  operatorApprovals : Nat → Nat → Bool
  tokenTransferable : Nat → Bool
  balances : Nat → Nat

/-- `PermissionNFT.ownerOf(tokenId)`: reverts (`none`) when unminted. -/
def nftOwnerOf (n : NftState) (tokenId : Nat) : Option Nat :=
  if n.ownerOfTok tokenId = 0 then none else some (n.ownerOfTok tokenId)

/-- `_isApprovedOrOwner(spender, tokenId, tokenOwner)`. -/
def isApprovedOrOwner (n : NftState) (spender tokenId tokenOwner : Nat) : Bool :=
  (spender == tokenOwner) || (n.tokenApprovals tokenId == spender)
    || n.operatorApprovals tokenOwner spender

/-- `PermissionNFT.transferFrom(from, to, tokenId)` called by `caller`
(balance arithmetic is `unchecked`, hence modulo `2^256`). -/
def nftTransferFrom (n : NftState) (caller fromAddr toAddr tokenId : Nat) :
    Except NftError NftState :=
  if toAddr = 0 then .error .zeroAddress
  else
    match nftOwnerOf n tokenId with
    | none => .error (.tokenDoesNotExist tokenId)
    | some tokenOwner =>
      if !n.tokenTransferable tokenId then .error (.tokenSoulbound tokenId)
      else if tokenOwner ≠ fromAddr then .error .incorrectOwner
      else if !isApprovedOrOwner n caller tokenId tokenOwner then .error .notAuthorized
      else
        let b1 := fun a =>
          if a = fromAddr then (n.balances fromAddr + (2 ^ 256 - 1)) % 2 ^ 256 else n.balances a
        let b2 := fun a => if a = toAddr then (b1 toAddr + 1) % 2 ^ 256 else b1 a
        .ok { n with
          tokenApprovals := fun t => if t = tokenId then 0 else n.tokenApprovals t,
          balances := b2,
          ownerOfTok := fun t => if t = tokenId then toAddr else n.ownerOfTok t }

/-- A `Chain` whose `ownerOf` oracle at address `nftContract` is backed by
the `PermissionNFT` state `n`: the lookup reverts exactly when
`PermissionNFT.ownerOf` reverts. -/
def nftBackedOracle (n : NftState) : Nat → Option Nat := fun tokenId => nftOwnerOf n tokenId

/-! ### Administrator action sequences (for the one-way disablement claim) -/

/-- One administrator-gated call on `PinataFS`, tagged with its sender. -/
inductive AdminAct
  | replacePrefs (caller nftContract tokenId : Nat) (rawList : List (List Nat))
  | setRevoked (caller nftContract tokenId : Nat) (revoked : Bool)
  | transferOwner (caller newOwner : Nat)

/-- Sender of an administrator call. -/
def AdminAct.sender : AdminAct → Nat
  | .replacePrefs caller _ _ _ => caller
  | .setRevoked caller _ _ _ => caller
  | .transferOwner caller _ => caller

/-- Ledger semantics of one administrator call: a reverting call leaves the
contract storage unchanged. -/
def runAdmin (chain : Chain) (st : FSState) : AdminAct → FSState
  | .replacePrefs caller c t l =>
    match replaceTokenPrefixes chain st caller c t l with
    | .ok st' => st'
    | .error _ => st
  | .setRevoked caller c t r =>
    match setTokenWriteRevoked chain st caller c t r with
    | .ok st' => st'
    | .error _ => st
  | .transferOwner caller newOwner =>
    match transferOwnership st caller newOwner with
    | .ok st' => st'
    | .error _ => st

/-! ### The declarative path grammar (from the specification's words)

The spec describes canonical paths segment-wise: start with `/`, no two
consecutive `/`, no trailing `/`, no empty segments, and per-segment
character rules with `.` restricted to the final segment in FilePath mode. -/

/-- Split a byte list into its `/`-separated segments (always nonempty as a
list of segments; an empty byte list has the single empty segment). -/
def splitOnSlash : List Nat → List (List Nat)
  | [] => [[]]
  | c :: t =>
    if c = slashB then [] :: splitOnSlash t
    else (c :: (splitOnSlash t).headI) :: (splitOnSlash t).tail

/-- `true` iff the byte list contains two consecutive `'/'` bytes. -/
def hasDoubleSlash : List Nat → Bool
  | c :: d :: t => (decide (c = slashB) && decide (d = slashB)) || hasDoubleSlash (d :: t)
  | _ => false

/-- Spec rule for a non-final segment: nonempty, every character in the
base legal classes (no `.`). -/
def innerSegOk (seg : List Nat) : Prop :=
  seg ≠ [] ∧ ∀ c ∈ seg, legalBaseChar c = true

/-- Spec rule for the final segment: nonempty; in FilePath mode `.` is also
legal, at most once, and not at the start or end of the segment; in Prefix
mode only the base classes. -/
def finalSegOk (allowDot : Bool) (seg : List Nat) : Prop :=
  seg ≠ [] ∧
    (if allowDot then
      (∀ c ∈ seg, legalBaseChar c = true ∨ c = dotB) ∧ seg.count dotB ≤ 1 ∧
        seg.head? ≠ some dotB ∧ seg.getLast? ≠ some dotB
    else ∀ c ∈ seg, legalBaseChar c = true)

/-- Segment-wise reading of the grammar over a segment list. -/
def segsOk (allowDot : Bool) (segs : List (List Nat)) : Prop :=
  (∀ seg ∈ segs.dropLast, innerSegOk seg) ∧
    ∃ lastSeg, segs.getLast? = some lastSeg ∧ finalSegOk allowDot lastSeg

/-- The claimed grammar for a non-root canonical path: starts with `'/'`,
no two consecutive `'/'`, no trailing `'/'`, and the per-segment character
rules over the `/`-separated segments after the leading slash. -/
def goodPath (allowDot : Bool) (s : List Nat) : Prop :=
  s.head? = some slashB ∧
  hasDoubleSlash s = false ∧
  s.getLast? ≠ some slashB ∧
  segsOk allowDot (splitOnSlash s.tail)

/-! ### Proof infrastructure for the scanner/grammar correspondence -/

/-- The scanner state corresponding to having consumed the partial current
segment `p` (with output accumulator `acc`). -/
def stateFor (acc p : List Nat) : ScanState :=
  ⟨acc, p.isEmpty, p.length, p.count dotB, decide (p.getLast? = some dotB)⟩

/-- The post-loop checks of `_normalizePath` as a single test. -/
def scanFinishOk (allowDot : Bool) (st : ScanState) : Bool :=
  !st.previousWasSlash && !(decide (st.segmentLength = 0)) && !st.segmentEndsWithDot &&
    !(decide (allowDot = false) && decide (0 < st.segmentDotCount))

/-- Whole-suffix acceptance: run the loop, then the post-loop checks. -/
def scanAccept (allowDot : Bool) (t : List Nat) (st : ScanState) : Bool :=
  match scanLoop allowDot t st with
  | none => false
  | some st' => scanFinishOk allowDot st'

/-- Invariant on a partial current segment that the scanner has accepted
so far. -/
def pendOk (allowDot : Bool) (p : List Nat) : Prop :=
  p.head? ≠ some dotB ∧ p.count dotB ≤ 1 ∧ (∀ c ∈ p, legalBaseChar c = true ∨ c = dotB) ∧
    (allowDot = false → p.count dotB = 0)

/-- Specification-side deduplication: keep the first occurrence of every
value, in order. -/
def dedupKeepFirst : List (List Nat) → List (List Nat)
  | [] => []
  | a :: rest => a :: dedupKeepFirst (rest.filter (fun b => b ≠ a))
termination_by l => l.length
decreasing_by
  simp only [List.length_cons]
  exact Nat.lt_succ_of_le (List.length_filter_le _ _)

/-! ### Concrete fixtures for witness evaluations -/

/-- A chain with one deployed contract at address 1 whose token 1 is owned
by address 5. -/
def chain0 : Chain :=
  ⟨fun a => decide (a = 1), fun c t => if c = 1 ∧ t = 1 then some 5 else none⟩

/-- A filesystem state with administrator 7 and prefix `/agent1` granted to
token 1 of contract 1. -/
def st0 : FSState :=
  ⟨7, fun _ _ => false,
    fun c t => if c = 1 ∧ t = 1 then [strBytes "/agent1"] else [],
    fun _ => []⟩

/-- A filesystem state whose administrator has been set to the zero
sentinel. -/
def stDisabled : FSState := ⟨0, fun _ _ => false, fun _ _ => [], fun _ => []⟩

/-- An ownership-token state: token 1 owned by address 5, transferable,
with address 9 approved as operator for address 5. -/
def nft0 : NftState :=
  ⟨fun t => if t = 1 then 5 else 0, fun _ => 0, fun a b => decide (a = 5 ∧ b = 9),
    fun t => decide (t = 1), fun a => if a = 5 then 1 else 0⟩

/-- The state of `nft0` after `transferFrom(5, 6, 1)` sent by 5. -/
def nft1 : NftState :=
  match nftTransferFrom nft0 5 5 6 1 with
  | .ok n => n
  | .error _ => nft0

/-- A chain with the ownership-token contract `n` deployed at address 1. -/
def chainNft (n : NftState) : Chain :=
  ⟨fun a => decide (a = 1), fun c t => if c = 1 then nftBackedOracle n t else none⟩

instance (seg : List Nat) : Decidable (innerSegOk seg) := by
  unfold innerSegOk; infer_instance

instance (allowDot : Bool) (seg : List Nat) : Decidable (finalSegOk allowDot seg) := by
  unfold finalSegOk; infer_instance

instance (allowDot : Bool) (segs : List (List Nat)) : Decidable (segsOk allowDot segs) := by
  unfold segsOk; infer_instance

instance (allowDot : Bool) (s : List Nat) : Decidable (goodPath allowDot s) := by
  unfold goodPath; infer_instance

/-! ## Lemmas: segment splitting -/

theorem splitOnSlash_ne_nil (t : List Nat) : splitOnSlash t ≠ [] := by
  cases t with
  | nil => simp [splitOnSlash]
  | cons c t => by_cases h : c = slashB <;> simp [splitOnSlash, h]

theorem headI_cons_tail {l : List (List Nat)} (h : l ≠ []) : l.headI :: l.tail = l := by
  cases l with
  | nil => exact absurd rfl h
  | cons a l => rfl

theorem splitOnSlash_append (p t : List Nat) (hp : ∀ c ∈ p, c ≠ slashB) :
    splitOnSlash (p ++ t) = (p ++ (splitOnSlash t).headI) :: (splitOnSlash t).tail := by
  induction p with
  | nil => simpa using (headI_cons_tail (splitOnSlash_ne_nil t)).symm
  | cons a p ih =>
    have ha : a ≠ slashB := hp a (by simp)
    have ih' := ih (fun c hc => hp c (by simp [hc]))
    simp [splitOnSlash, ha, ih']

theorem noEmptySegs_iff (t : List Nat) :
    (∀ seg ∈ splitOnSlash t, seg ≠ []) ↔
      (hasDoubleSlash (slashB :: t) = false ∧ (slashB :: t).getLast? ≠ some slashB) := by
  have main : ∀ (n : Nat) (t : List Nat), t.length ≤ n →
      ((∀ seg ∈ splitOnSlash t, seg ≠ []) ↔
        (hasDoubleSlash (slashB :: t) = false ∧ (slashB :: t).getLast? ≠ some slashB)) := by
    intro n
    induction n with
    | zero =>
      intro t ht
      have h0 : t = [] := List.length_eq_zero.mp (Nat.le_zero.mp ht)
      subst h0
      simp [splitOnSlash, hasDoubleSlash]
    | succ n ih =>
      intro t ht
      match t with
      | [] => simp [splitOnSlash, hasDoubleSlash]
      | c :: t' =>
        by_cases hc : c = slashB
        · subst hc
          simp [splitOnSlash, hasDoubleSlash]
        · match t' with
          | [] => simp [splitOnSlash, hasDoubleSlash, hc]
          | d :: u =>
            by_cases hd : d = slashB
            · subst hd
              have hu := ih u (by simp at ht ⊢; omega)
              simp only [splitOnSlash, if_pos rfl, if_neg hc, List.headI, List.tail,
                hasDoubleSlash, List.getLast?_cons_cons] at hu ⊢
              simp only [decide_eq_true_eq] at *
              constructor
              · intro h
                have := hu.mp (fun seg hs => h seg (by simp [hs]))
                simpa [hc] using this
              · intro h
                intro seg hs
                rcases List.mem_cons.mp hs with h1 | h1
                · subst h1; simp
                · exact hu.mpr (by simpa [hc] using h) seg h1
            · have ht' := ih (d :: u) (by simp at ht ⊢; omega)
              simp only [splitOnSlash, if_neg hc, if_neg hd, List.headI, List.tail,
                hasDoubleSlash, List.getLast?_cons_cons] at ht' ⊢
              simp only [decide_eq_true_eq] at *
              constructor
              · intro h
                have := ht'.mp ?_
                · simpa [hc, hd] using this
                · intro seg hs
                  rcases List.mem_cons.mp hs with h1 | h1
                  · subst h1; simp
                  · exact h seg (by simp [h1])
              · intro h
                intro seg hs
                rcases List.mem_cons.mp hs with h1 | h1
                · subst h1; simp
                · exact (ht'.mpr (by simpa [hc, hd] using h)) seg (by simp [h1])
  exact main t.length t le_rfl

/-! ## Lemmas: segment predicates -/

theorem legalBaseChar_dotB : legalBaseChar dotB = false := by decide

theorem legalBaseChar_slashB : legalBaseChar slashB = false := by decide

theorem segsOk_cons {allowDot : Bool} {a : List Nat} {l : List (List Nat)} (hl : l ≠ []) :
    segsOk allowDot (a :: l) ↔ innerSegOk a ∧ segsOk allowDot l := by
  obtain ⟨b, l', rfl⟩ := List.exists_cons_of_ne_nil hl
  simp only [segsOk, List.dropLast_cons₂, List.getLast?_cons_cons, List.mem_cons, forall_eq_or_imp]
  tauto

theorem segsOk_single {allowDot : Bool} {a : List Nat} :
    segsOk allowDot [a] ↔ finalSegOk allowDot a := by
  simp [segsOk]

theorem dotFree_facts {seg : List Nat} (hall : ∀ c ∈ seg, legalBaseChar c = true) :
    seg.head? ≠ some dotB ∧ seg.getLast? ≠ some dotB ∧ seg.count dotB = 0 := by
  have hnd : dotB ∉ seg := fun hmem => by simpa [legalBaseChar_dotB] using hall dotB hmem
  refine ⟨?_, ?_, List.count_eq_zero.mpr hnd⟩
  · intro hh; exact hnd (List.mem_of_mem_head? hh)
  · intro hh; exact hnd (List.mem_of_mem_getLast? hh)

theorem segsOk_mem {allowDot : Bool} {segs : List (List Nat)} (h : segsOk allowDot segs) :
    ∀ seg ∈ segs, seg ≠ [] ∧ seg.head? ≠ some dotB ∧ seg.getLast? ≠ some dotB ∧
      seg.count dotB ≤ 1 ∧ ∀ c ∈ seg, legalBaseChar c = true ∨ (allowDot = true ∧ c = dotB) := by
  induction segs with
  | nil => intro seg hs; simp at hs
  | cons a l ih =>
    intro seg hs
    by_cases hl : l = []
    · subst hl
      have hseg : seg = a := by simpa using hs
      subst hseg
      have hf : finalSegOk allowDot seg := segsOk_single.mp h
      obtain ⟨hne, hrest⟩ := hf
      cases allowDot with
      | true =>
        simp only [if_pos rfl] at hrest
        obtain ⟨hchars, hcount, hh, hl'⟩ := hrest
        exact ⟨hne, hh, hl', hcount, fun c hc => (hchars c hc).imp_right (fun hd => ⟨rfl, hd⟩)⟩
      | false =>
        rw [if_neg (by decide)] at hrest
        obtain ⟨hh, hl', hc0⟩ := dotFree_facts hrest
        exact ⟨hne, hh, hl', by omega, fun c hc => Or.inl (hrest c hc)⟩
    · rcases (segsOk_cons hl).mp h with ⟨hin, hrec⟩
      rcases List.mem_cons.mp hs with rfl | hmem
      · obtain ⟨hne, hall⟩ := hin
        obtain ⟨hh, hl', hc0⟩ := dotFree_facts hall
        exact ⟨hne, hh, hl', by omega, fun c hc => Or.inl (hall c hc)⟩
      · exact ih hrec seg hmem

theorem split_append_slash (p t' : List Nat) (hp : ∀ c ∈ p, c ≠ slashB) :
    splitOnSlash (p ++ slashB :: t') = p :: splitOnSlash t' := by
  rw [splitOnSlash_append p _ hp]
  simp [splitOnSlash]

theorem split_append_char (p t' : List Nat) (c : Nat) (hc : c ≠ slashB)
    (hp : ∀ x ∈ p, x ≠ slashB) :
    splitOnSlash (p ++ c :: t') =
      (p ++ c :: (splitOnSlash t').headI) :: (splitOnSlash t').tail := by
  rw [splitOnSlash_append p _ hp]
  simp [splitOnSlash, hc]

/-! ## Lemmas: scanner invariants -/

theorem pendOk_noSlash {allowDot : Bool} {p : List Nat} (hp : pendOk allowDot p) :
    ∀ c ∈ p, c ≠ slashB := by
  intro c hc hcs
  subst hcs
  rcases hp.2.2.1 _ hc with hl | hd
  · rw [legalBaseChar_slashB] at hl; exact Bool.false_ne_true hl
  · exact absurd hd (by decide)

theorem pendOk_nil (allowDot : Bool) : pendOk allowDot [] := by
  simp [pendOk]

theorem pendOk_snoc_legal {allowDot : Bool} {p : List Nat} (hp : pendOk allowDot p)
    {c : Nat} (hc : legalBaseChar c = true) : pendOk allowDot (p ++ [c]) := by
  have hcd : c ≠ dotB := fun h => by simp [h, legalBaseChar_dotB] at hc
  have hone : List.count dotB [c] = 0 := by
    simp [List.count_eq_zero, Ne.symm hcd]
  obtain ⟨h1, h2, h3, h4⟩ := hp
  refine ⟨?_, ?_, ?_, ?_⟩
  · cases p with
    | nil => simpa using Ne.symm (fun h => hcd (Option.some.inj h).symm)
    | cons a p' => simpa using h1
  · simpa [List.count_append, hone] using h2
  · intro x hx
    rcases List.mem_append.mp hx with hx | hx
    · exact h3 x hx
    · simp at hx; subst hx; exact Or.inl hc
  · intro h
    simpa [List.count_append, hone] using h4 h

theorem pendOk_snoc_dot {p : List Nat} (hp : pendOk true p) (hne : p ≠ [])
    (hc0 : p.count dotB = 0) : pendOk true (p ++ [dotB]) := by
  obtain ⟨h1, h2, h3, _⟩ := hp
  refine ⟨?_, ?_, ?_, ?_⟩
  · cases p with
    | nil => exact absurd rfl hne
    | cons a p' => simpa using h1
  · simp [List.count_append, hc0]
  · intro x hx
    rcases List.mem_append.mp hx with hx | hx
    · exact h3 x hx
    · simp at hx; subst hx; exact Or.inr rfl
  · intro h; cases h

theorem stateFor_snoc_legal (acc p : List Nat) (c : Nat) (hc : c ≠ dotB) :
    stateFor (acc ++ [c]) (p ++ [c]) =
      ⟨acc ++ [c], false, p.length + 1, p.count dotB, false⟩ := by
  simp [stateFor, List.count_append, List.getLast?_concat, hc, Ne.symm hc]

theorem stateFor_snoc_dot (acc p : List Nat) :
    stateFor (acc ++ [dotB]) (p ++ [dotB]) =
      ⟨acc ++ [dotB], false, p.length + 1, p.count dotB + 1, true⟩ := by
  simp [stateFor, List.count_append, List.getLast?_concat]

theorem count_pos_mem {p : List Nat} (h : 0 < p.count dotB) : dotB ∈ p := by
  by_contra hmem
  rw [List.count_eq_zero.mpr hmem] at h
  exact absurd h (by omega)

/-- Acceptance of the empty remaining input: exactly the post-loop checks. -/
theorem scanAccept_nil (allowDot : Bool) (acc p : List Nat) :
    scanAccept allowDot [] (stateFor acc p) = true ↔
      (p ≠ [] ∧ p.getLast? ≠ some dotB ∧ ¬(allowDot = false ∧ 0 < p.count dotB)) := by
  cases allowDot <;>
    (simp only [scanAccept, scanLoop, scanFinishOk, stateFor] ;
      simp [List.isEmpty_iff, List.length_eq_zero, and_assoc, List.count_pos_iff])

/-- Main correspondence: the `_normalizePath` loop started mid-segment at
partial segment `p` accepts the remaining input `t` exactly when the
segment-wise grammar holds of `p ++ t`. -/
theorem scanAccept_iff (allowDot : Bool) :
    ∀ (t p acc : List Nat), pendOk allowDot p →
      (scanAccept allowDot t (stateFor acc p) = true ↔
        segsOk allowDot (splitOnSlash (p ++ t))) := by
  intro t
  induction t with
  | nil =>
    intro p acc hp
    have hsplit : splitOnSlash (p ++ []) = [p] := by
      rw [splitOnSlash_append p [] (pendOk_noSlash hp)]
      simp [splitOnSlash]
    rw [hsplit, segsOk_single, scanAccept_nil]
    obtain ⟨h1, h2, h3, h4⟩ := hp
    cases allowDot with
    | true =>
      rw [finalSegOk, if_pos rfl]
      constructor
      · rintro ⟨hne, hlast, -⟩
        exact ⟨hne, h3, h2, h1, hlast⟩
      · rintro ⟨hne, -, -, -, hlast⟩
        exact ⟨hne, hlast, by simp⟩
    | false =>
      rw [finalSegOk, if_neg (by decide)]
      have hc0 := h4 rfl
      have hnd : dotB ∉ p := List.count_eq_zero.mp hc0
      constructor
      · rintro ⟨hne, -, -⟩
        refine ⟨hne, fun x hx => ?_⟩
        rcases h3 x hx with hl | hd
        · exact hl
        · subst hd; exact absurd hx hnd
      · rintro ⟨hne, hall⟩
        exact ⟨hne, (dotFree_facts hall).2.1, by simp [hc0]⟩
  | cons c t' ih =>
    intro p acc hp
    have hpns := pendOk_noSlash hp
    by_cases hc : c = slashB
    · subst hc
      rw [split_append_slash p t' hpns]
      by_cases hpe : p = []
      · subst hpe
        have hL : scanAccept allowDot (slashB :: t') (stateFor acc []) = false := by
          simp [scanAccept, scanLoop, stateFor]
        have hR : ¬ segsOk allowDot ([] :: splitOnSlash t') := fun h =>
          ((segsOk_mem h) [] (by simp)).1 rfl
        simp [hL, hR]
      · have hie : p.isEmpty = false := by simp [hpe]
        by_cases hcnt : 0 < p.count dotB
        · have hL : scanAccept allowDot (slashB :: t') (stateFor acc p) = false := by
            simp [scanAccept, scanLoop, stateFor, hie, hcnt]
          have hR : ¬ segsOk allowDot (p :: splitOnSlash t') := fun h => by
            have hin := ((segsOk_cons (splitOnSlash_ne_nil t')).mp h).1
            simpa [legalBaseChar_dotB] using hin.2 dotB (count_pos_mem hcnt)
          simp [hL, hR]
        · have hcz : p.count dotB = 0 := by omega
          have hstep : scanAccept allowDot (slashB :: t') (stateFor acc p) =
              scanAccept allowDot t' (stateFor (acc ++ [slashB]) []) := by
            have hs0 : stateFor (acc ++ [slashB]) [] = ⟨acc ++ [slashB], true, 0, 0, false⟩ := by
              simp [stateFor]
            rw [hs0]
            simp [scanAccept, scanLoop, stateFor, hie, hcnt]
          rw [hstep, ih [] (acc ++ [slashB]) (pendOk_nil allowDot), List.nil_append,
            segsOk_cons (splitOnSlash_ne_nil t')]
          have hinner : innerSegOk p := by
            refine ⟨hpe, fun x hx => ?_⟩
            rcases hp.2.2.1 x hx with hl | hd
            · exact hl
            · subst hd; exact absurd hx (List.count_eq_zero.mp hcz)
          simp [hinner]
    · by_cases hlegal : legalBaseChar c = true
      · have hcd : c ≠ dotB := fun h => by simp [h, legalBaseChar_dotB] at hlegal
        have hstep : scanAccept allowDot (c :: t') (stateFor acc p) =
            scanAccept allowDot t' (stateFor (acc ++ [c]) (p ++ [c])) := by
          rw [stateFor_snoc_legal acc p c hcd]
          simp [scanAccept, scanLoop, stateFor, hc, hlegal]
        rw [hstep, ih (p ++ [c]) (acc ++ [c]) (pendOk_snoc_legal hp hlegal),
          List.append_assoc, List.singleton_append]
      · by_cases hdot : c = dotB
        · subst hdot
          have hds : ¬(dotB = slashB) := by decide
          rw [split_append_char p t' dotB hds hpns]
          cases allowDot with
          | false =>
            have hL : scanAccept false (dotB :: t') (stateFor acc p) = false := by
              simp [scanAccept, scanLoop, hds, legalBaseChar_dotB]
            have hR : ¬ segsOk false
                ((p ++ dotB :: (splitOnSlash t').headI) :: (splitOnSlash t').tail) := fun h => by
              have hmem := (segsOk_mem h) _ (List.mem_cons_self _ _)
              have hdm : dotB ∈ p ++ dotB :: (splitOnSlash t').headI := by simp
              rcases hmem.2.2.2.2 dotB hdm with hl | hft
              · rw [legalBaseChar_dotB] at hl; exact Bool.false_ne_true hl
              · exact Bool.false_ne_true hft.1
            simp [hL, hR]
          | true =>
            by_cases hpe : p = []
            · subst hpe
              have hL : scanAccept true (dotB :: t') (stateFor acc []) = false := by
                simp [scanAccept, scanLoop, stateFor, hds, legalBaseChar_dotB]
              have hR : ¬ segsOk true
                  ((dotB :: (splitOnSlash t').headI) :: (splitOnSlash t').tail) := fun h => by
                have hmem := (segsOk_mem h) _ (List.mem_cons_self _ _)
                exact hmem.2.1 (by simp)
              simp [hL, hR]
            · have hie : p.isEmpty = false := by simp [hpe]
              have hlz : ¬(p.length = 0) := by simp [List.length_eq_zero, hpe]
              by_cases hcnt : 0 < p.count dotB
              · have hL : scanAccept true (dotB :: t') (stateFor acc p) = false := by
                  simp [scanAccept, scanLoop, stateFor, hds, legalBaseChar_dotB, hlz, hcnt]
                have hR : ¬ segsOk true
                    ((p ++ dotB :: (splitOnSlash t').headI) :: (splitOnSlash t').tail) :=
                  fun h => by
                    have hmem := (segsOk_mem h) _ (List.mem_cons_self _ _)
                    have hcount : 2 ≤ (p ++ dotB :: (splitOnSlash t').headI).count dotB := by
                      rw [List.count_append]
                      have h1 : 1 ≤ List.count dotB (dotB :: (splitOnSlash t').headI) := by
                        simp [List.count_cons]
                      omega
                    have := hmem.2.2.2.1
                    omega
                simp [hL, hR]
              · have hcz : p.count dotB = 0 := by omega
                have hstep : scanAccept true (dotB :: t') (stateFor acc p) =
                    scanAccept true t' (stateFor (acc ++ [dotB]) (p ++ [dotB])) := by
                  rw [stateFor_snoc_dot acc p]
                  simp [scanAccept, scanLoop, stateFor, hds, legalBaseChar_dotB, hlz, hcnt]
                rw [hstep, ih (p ++ [dotB]) (acc ++ [dotB]) (pendOk_snoc_dot hp hpe hcz),
                  List.append_assoc, List.singleton_append,
                  split_append_char p t' dotB hds hpns]
        · have hL : scanAccept allowDot (c :: t') (stateFor acc p) = false := by
            simp [scanAccept, scanLoop, hc, hlegal, hdot]
          rw [split_append_char p t' c hc hpns]
          have hR : ¬ segsOk allowDot
              ((p ++ c :: (splitOnSlash t').headI) :: (splitOnSlash t').tail) := fun h => by
            have hmem := (segsOk_mem h) _ (List.mem_cons_self _ _)
            have hcm : c ∈ p ++ c :: (splitOnSlash t').headI := by simp
            rcases hmem.2.2.2.2 c hcm with hl | hft
            · exact hlegal hl
            · exact hdot hft.2
          simp [hL, hR]

theorem goodPath_iff_segsOk (allowDot : Bool) (t : List Nat) :
    goodPath allowDot (slashB :: t) ↔ segsOk allowDot (splitOnSlash t) := by
  constructor
  · rintro ⟨-, -, -, hseg⟩
    simpa using hseg
  · intro hseg
    have hne : ∀ seg ∈ splitOnSlash t, seg ≠ [] := fun seg hs => (segsOk_mem hseg seg hs).1
    have hbr := (noEmptySegs_iff t).mp hne
    exact ⟨rfl, hbr.1, hbr.2, by simpa using hseg⟩

theorem normalizePath_cons₂ (allowDot allowRoot : Bool) (d : Nat) (u : List Nat) :
    (normalizePath (slashB :: d :: u) allowDot allowRoot).isSome =
      scanAccept allowDot (d :: u) initScanState := by
  simp only [normalizePath, scanAccept, List.tail_cons]
  rw [if_neg (by simp), if_neg (by simp)]
  cases hsc : scanLoop allowDot (d :: u) initScanState with
  | none => simp
  | some st =>
    obtain ⟨n0, pw, sl, dc, se⟩ := st
    cases pw <;> cases se <;> by_cases h1 : sl = 0 <;>
      by_cases h2 : allowDot = false ∧ 0 < dc <;>
        simp [scanFinishOk, h1, h2, Bool.decide_and] <;>
        (rcases Bool.eq_false_or_eq_true allowDot with hA | hA
         · simp [hA]
         · subst hA
           have hdc : dc = 0 := by
             rcases Nat.eq_zero_or_pos dc with h0 | h0
             · exact h0
             · exact absurd ⟨rfl, h0⟩ h2
           simp [hdc])

theorem normalizePath_isSome_iff (rawPath : List Nat) (allowDot allowRoot : Bool) :
    (normalizePath rawPath allowDot allowRoot).isSome = true ↔
      ((rawPath = [slashB] ∧ allowRoot = true) ∨ goodPath allowDot rawPath) := by
  cases rawPath with
  | nil => simp [normalizePath, goodPath]
  | cons c t =>
    by_cases hc : c = slashB
    · subst hc
      cases t with
      | nil =>
        cases allowRoot <;> simp [normalizePath, goodPath]
      | cons d u =>
        rw [normalizePath_cons₂]
        have hinit : initScanState = stateFor [slashB] [] := by simp [stateFor, initScanState]
        rw [hinit, scanAccept_iff allowDot (d :: u) [] [slashB] (pendOk_nil allowDot),
          List.nil_append]
        rw [← goodPath_iff_segsOk]
        simp
    · simp [normalizePath, hc, goodPath, Ne.symm hc]

theorem normalizeFilePath_isSome_iff (s : List Nat) :
    (normalizeFilePath s).isSome = true ↔ goodPath true s := by
  rw [normalizeFilePath, normalizePath_isSome_iff]
  simp

theorem normalizePrefixPath_isSome_iff (s : List Nat) :
    (normalizePrefixPath s).isSome = true ↔ (s = [slashB] ∨ goodPath false s) := by
  rw [normalizePrefixPath, normalizePath_isSome_iff]
  simp

/-! ## Lemmas: the scanner output is a verbatim copy -/

theorem scanLoop_normalized (allowDot : Bool) :
    ∀ (t : List Nat) (st st' : ScanState), scanLoop allowDot t st = some st' →
      st'.normalized = st.normalized ++ t := by
  intro t
  induction t with
  | nil =>
    intro st st' h
    cases h
    simp
  | cons c t' ih =>
    intro st st' h
    by_cases hc : c = slashB
    · subst hc
      rw [scanLoop, if_pos rfl] at h
      by_cases h1 : st.previousWasSlash = true
      · rw [if_pos h1] at h; cases h
      · rw [if_neg h1] at h
        by_cases h2 : 0 < st.segmentDotCount
        · rw [if_pos h2] at h; cases h
        · rw [if_neg h2] at h
          simpa using ih _ st' h
    · rw [scanLoop, if_neg hc] at h
      by_cases hl : legalBaseChar c = true
      · rw [if_pos hl] at h
        simpa using ih _ st' h
      · rw [if_neg hl] at h
        by_cases hd : c = dotB
        · rw [if_pos hd] at h
          subst hd
          by_cases h1 : allowDot = false
          · rw [if_pos h1] at h; cases h
          · rw [if_neg h1] at h
            by_cases h2 : st.segmentLength = 0
            · rw [if_pos h2] at h; cases h
            · rw [if_neg h2] at h
              by_cases h3 : 1 < st.segmentDotCount + 1
              · rw [if_pos h3] at h; cases h
              · rw [if_neg h3] at h
                simpa using ih _ st' h
        · rw [if_neg hd] at h; cases h

theorem normalizePath_eq_self {s r : List Nat} {allowDot allowRoot : Bool}
    (h : normalizePath s allowDot allowRoot = some r) : r = s := by
  rcases s with - | ⟨c, t⟩
  · simp [normalizePath] at h
  · by_cases hc : c = slashB
    · subst hc
      rcases t with - | ⟨d, u⟩
      · rcases allowRoot with - | -
        · simp [normalizePath] at h
        · simp [normalizePath] at h
          simp [h]
      · rw [normalizePath, if_neg (by simp), if_neg (by simp), List.tail_cons] at h
        split at h
        · cases h
        · next st hsc =>
          split at h
          · cases h
          · split at h
            · cases h
            · split at h
              · cases h
              · split at h
                · cases h
                · cases h
                  have hn := scanLoop_normalized allowDot (d :: u) initScanState st hsc
                  simpa [initScanState] using hn
    · simp [normalizePath, hc] at h

/-! ## Lemmas: the client-side validator agrees with the on-chain scanner -/

theorem tsLoop_eq_scanLoop (allowDot : Bool) :
    ∀ (l : List Nat) (st : ScanState),
      tsLoop allowDot l
          ⟨st.previousWasSlash, st.segmentLength, st.segmentDotCount, st.segmentEndsWithDot⟩ =
        (scanLoop allowDot l st).map
          (fun st' =>
            ⟨st'.previousWasSlash, st'.segmentLength, st'.segmentDotCount,
              st'.segmentEndsWithDot⟩) := by
  intro l
  induction l with
  | nil => intro st; simp [tsLoop, scanLoop]
  | cons c rest ih =>
    intro st
    by_cases hc : c = slashB
    · subst hc
      rw [tsLoop, scanLoop, if_pos rfl, if_pos rfl]
      by_cases h1 : st.previousWasSlash = true
      · simp [h1]
      · rw [Bool.not_eq_true] at h1
        by_cases h2 : 0 < st.segmentDotCount
        · simp [h1, h2]
        · simp only [h1, Bool.false_eq_true, if_neg, if_false, h2]
          exact ih ⟨st.normalized ++ [slashB], true, 0, 0, false⟩
    · by_cases hl : legalBaseChar c = true
      · rw [tsLoop, scanLoop, if_neg hc, if_neg hc, if_pos hl, if_pos hl]
        exact ih ⟨st.normalized ++ [c], false, st.segmentLength + 1, st.segmentDotCount, false⟩
      · by_cases hd : c = dotB
        · subst hd
          rw [tsLoop, scanLoop, if_neg hc, if_neg hc, if_neg hl, if_neg hl,
            if_pos rfl, if_pos rfl]
          by_cases h1 : allowDot = false
          · simp [h1]
          · rw [if_neg h1, if_neg h1]
            by_cases h2 : st.segmentLength = 0
            · simp [h2]
            · rw [if_neg h2, if_neg h2]
              by_cases h3 : 1 < st.segmentDotCount + 1
              · simp [h3]
              · rw [if_neg h3, if_neg h3]
                exact ih ⟨st.normalized ++ [dotB], false, st.segmentLength + 1,
                  st.segmentDotCount + 1, true⟩
        · rw [tsLoop, scanLoop, if_neg hc, if_neg hc, if_neg hl, if_neg hl,
            if_neg hd, if_neg hd]
          simp

theorem validatePathValue_eq_isSome (l : List Nat) (allowDot allowRoot : Bool) :
    validatePathValue l allowDot allowRoot = (normalizePath l allowDot allowRoot).isSome := by
  rw [validatePathValue, normalizePath]
  by_cases h0 : l = [] ∨ ¬(l.headI = slashB)
  · simp [h0]
  · have h0' : ¬(l.length = 0 ∨ l.headI ≠ slashB) := by
      simpa [List.length_eq_zero] using h0
    rw [if_neg h0', if_neg h0']
    by_cases h1 : l.length = 1
    · rw [if_pos h1, if_pos h1]
      cases allowRoot <;> simp
    · rw [if_neg h1, if_neg h1]
      have hts := tsLoop_eq_scanLoop allowDot l.tail initScanState
      have hinit : (⟨true, 0, 0, false⟩ : TsScanState) =
          ⟨initScanState.previousWasSlash, initScanState.segmentLength,
            initScanState.segmentDotCount, initScanState.segmentEndsWithDot⟩ := rfl
      rw [hinit, hts]
      cases hsc : scanLoop allowDot l.tail initScanState with
      | none => simp
      | some st =>
        obtain ⟨n0, pw, sl, dc, se⟩ := st
        cases pw <;> cases se <;> by_cases hsl : sl = 0 <;>
          by_cases hdc : allowDot = false ∧ 0 < dc <;>
            simp [hsl, hdc]

/-! ## Lemmas: encodings -/

theorem encodeWith_ascii {f : Char → List Nat} (hf : ∀ c : Char, c.toNat < 128 → f c = [c.toNat]) :
    ∀ s : List Char, (∀ c ∈ s, c.toNat < 128) → encodeWith f s = s.map Char.toNat := by
  intro s
  induction s with
  | nil => intro; rfl
  | cons c rest ih =>
    intro hs
    rw [encodeWith, hf c (hs c (by simp)), ih (fun x hx => hs x (by simp [hx]))]
    rfl

theorem utf8Bytes_nonascii {c : Char} (h : 128 ≤ c.toNat) : ∃ u ∈ utf8Bytes c, 128 ≤ u := by
  rw [utf8Bytes]
  by_cases h1 : c.toNat < 128
  · omega
  · rw [if_neg h1]
    by_cases h2 : c.toNat < 2048
    · exact ⟨192 + c.toNat / 64, by simp [h2], by omega⟩
    · rw [if_neg h2]
      by_cases h3 : c.toNat < 65536
      · exact ⟨224 + c.toNat / 4096, by simp [h3], by omega⟩
      · exact ⟨240 + c.toNat / 262144, by simp [h3], by omega⟩

theorem utf16Units_nonascii {c : Char} (h : 128 ≤ c.toNat) : ∃ u ∈ utf16Units c, 128 ≤ u := by
  rw [utf16Units]
  by_cases h1 : c.toNat < 65536
  · exact ⟨c.toNat, by simp [h1], h⟩
  · exact ⟨55296 + (c.toNat - 65536) / 1024, by simp [h1], by omega⟩

theorem encodeWith_nonascii {f : Char → List Nat}
    (hf : ∀ c : Char, 128 ≤ c.toNat → ∃ u ∈ f c, 128 ≤ u) :
    ∀ {s : List Char}, (∃ c ∈ s, 128 ≤ c.toNat) → ∃ u ∈ encodeWith f s, 128 ≤ u := by
  intro s
  induction s with
  | nil => rintro ⟨c, hc, -⟩; simp at hc
  | cons c rest ih =>
    rintro ⟨x, hx, hxge⟩
    rcases List.mem_cons.mp hx with rfl | hx'
    · obtain ⟨u, hu, huge⟩ := hf x hxge
      exact ⟨u, by rw [encodeWith]; exact List.mem_append.mpr (Or.inl hu), huge⟩
    · obtain ⟨u, hu, huge⟩ := ih ⟨x, hx', hxge⟩
      exact ⟨u, by rw [encodeWith]; exact List.mem_append.mpr (Or.inr hu), huge⟩

theorem legalBaseChar_ge128 {c : Nat} (h : 128 ≤ c) : legalBaseChar c = false := by
  simp only [legalBaseChar, decide_eq_false_iff_not]
  omega

theorem scanLoop_reject (allowDot : Bool) :
    ∀ (l : List Nat) (st : ScanState), (∃ u ∈ l, 128 ≤ u) → scanLoop allowDot l st = none := by
  intro l
  induction l with
  | nil => rintro st ⟨u, hu, -⟩; simp at hu
  | cons c rest ih =>
    rintro st ⟨u, hu, huge⟩
    rcases List.mem_cons.mp hu with rfl | hu'
    · have hcs : ¬(u = slashB) := by rw [slashB]; omega
      have hcd : ¬(u = dotB) := by rw [dotB]; omega
      have hcl : ¬(legalBaseChar u = true) := by simp [legalBaseChar_ge128 huge]
      rw [scanLoop, if_neg hcs, if_neg hcl, if_neg hcd]
    · have hrest : ∃ v ∈ rest, 128 ≤ v := ⟨u, hu', huge⟩
      by_cases hc : c = slashB
      · subst hc
        rw [scanLoop, if_pos rfl]
        by_cases h1 : st.previousWasSlash = true
        · simp [h1]
        · rw [Bool.not_eq_true] at h1
          by_cases h2 : 0 < st.segmentDotCount
          · simp [h1, h2]
          · simp only [h1, Bool.false_eq_true, if_false, if_neg h2]
            exact ih _ hrest
      · by_cases hl : legalBaseChar c = true
        · rw [scanLoop, if_neg hc, if_pos hl]
          exact ih _ hrest
        · by_cases hd : c = dotB
          · subst hd
            rw [scanLoop, if_neg hc, if_neg hl, if_pos rfl]
            by_cases h1 : allowDot = false
            · simp [h1]
            · rw [if_neg h1]
              by_cases h2 : st.segmentLength = 0
              · simp [h2]
              · rw [if_neg h2]
                by_cases h3 : 1 < st.segmentDotCount + 1
                · simp [h3]
                · rw [if_neg h3]
                  exact ih _ hrest
          · rw [scanLoop, if_neg hc, if_neg hl, if_neg hd]

theorem normalizePath_reject {l : List Nat} (h : ∃ u ∈ l, 128 ≤ u) (allowDot allowRoot : Bool) :
    normalizePath l allowDot allowRoot = none := by
  obtain ⟨u, hu, huge⟩ := h
  cases l with
  | nil => simp at hu
  | cons c rest =>
    rcases List.mem_cons.mp hu with rfl | hu'
    · have : ¬(u = slashB) := by rw [slashB]; omega
      simp [normalizePath, this]
    · have hrne : rest ≠ [] := fun hr => by subst hr; simp at hu'
      by_cases hc : c = slashB
      · subst hc
        rw [normalizePath, if_neg (by simp), if_neg (by simp [List.length_eq_zero, hrne]),
          List.tail_cons, scanLoop_reject allowDot rest initScanState ⟨u, hu', huge⟩]
      · rw [normalizePath, if_pos (Or.inr (by simp [hc]))]

/-! ## Lemmas: the subtree matcher -/

theorem bytesMatch_iff : ∀ (p q : List Nat), bytesMatch p q = true ↔ p.take q.length = q := by
  intro p q
  induction q generalizing p with
  | nil => simp [bytesMatch]
  | cons b bs ih =>
    cases p with
    | nil => simp [bytesMatch]
    | cons a as => simp [bytesMatch, ih as, List.take_succ_cons]

theorem head_drop_getD : ∀ (p : List Nat) (n : Nat), n < p.length →
    (p.drop n).head? = some (p.getD n 0) := by
  intro p
  induction p with
  | nil => intro n h; simp at h
  | cons a as ih =>
    intro n h
    cases n with
    | zero => simp
    | succ m => simpa using ih m (by simpa using h)

theorem isSome_head_slash {s : List Nat} {allowDot allowRoot : Bool}
    (h : (normalizePath s allowDot allowRoot).isSome = true) : s.head? = some slashB := by
  rcases (normalizePath_isSome_iff s allowDot allowRoot).mp h with ⟨rfl, -⟩ | hg
  · rfl
  · exact hg.1

theorem isPathInPrefix_iff {p q : List Nat}
    (hp : (normalizeFilePath p).isSome = true) (hq : (normalizePrefixPath q).isSome = true) :
    (isPathInPrefix p q = true ↔
      (q = [slashB] ∨
        (p.take q.length = q ∧ (p = q ∨ (p.drop q.length).head? = some slashB)))) := by
  have hph : p.head? = some slashB := isSome_head_slash hp
  have hqh : q.head? = some slashB := isSome_head_slash hq
  obtain ⟨ptl, rfl⟩ : ∃ tl, p = slashB :: tl := by
    cases p with
    | nil => simp at hph
    | cons a tl => simp at hph; exact ⟨tl, by simp [hph]⟩
  obtain ⟨qtl, rfl⟩ : ∃ tl, q = slashB :: tl := by
    cases q with
    | nil => simp at hqh
    | cons a tl => simp at hqh; exact ⟨tl, by simp [hqh]⟩
  by_cases hq1 : (slashB :: qtl).length = 1
  · have hqe : qtl = [] := by simpa [List.length_eq_zero] using hq1
    subst hqe
    simp [isPathInPrefix]
  · have hqne : qtl ≠ [] := by
      intro h; subst h; exact hq1 rfl
    have hqroot : ¬(slashB :: qtl = [slashB]) := by simp [hqne]
    rw [isPathInPrefix, if_neg hq1]
    by_cases h2 : (slashB :: ptl).length < (slashB :: qtl).length
    · rw [if_pos h2]
      constructor
      · intro h; cases h
      · rintro (h | ⟨htake, -⟩)
        · exact absurd h hqroot
        · have := congrArg List.length htake
          rw [List.length_take] at this
          omega
    · rw [if_neg h2]
      by_cases h3 : bytesMatch (slashB :: ptl) (slashB :: qtl) = true
      · have htake := (bytesMatch_iff _ _).mp h3
        rw [h3]
        simp only [Bool.not_true, Bool.false_eq_true, if_false]
        by_cases h4 : (slashB :: ptl).length = (slashB :: qtl).length
        · rw [if_pos h4]
          have hpq : slashB :: ptl = slashB :: qtl :=
            calc slashB :: ptl
                = List.take (slashB :: ptl).length (slashB :: ptl) :=
                  (List.take_length _).symm
              _ = List.take (slashB :: qtl).length (slashB :: ptl) := by rw [h4]
              _ = slashB :: qtl := htake
          simp [hpq]
        · rw [if_neg h4]
          have hlt : (slashB :: qtl).length < (slashB :: ptl).length := by omega
          rw [show ((slashB :: ptl).getD (slashB :: qtl).length 0 == slashB) = true ↔
              ((slashB :: ptl).drop (slashB :: qtl).length).head? = some slashB from ?_]
          · constructor
            · intro h; exact Or.inr ⟨htake, Or.inr h⟩
            · rintro (h | ⟨-, h | h⟩)
              · exact absurd h hqroot
              · exact absurd (congrArg List.length h) (by omega)
              · exact h
          · rw [head_drop_getD _ _ hlt]
            simp
      · have hbm : bytesMatch (slashB :: ptl) (slashB :: qtl) = false :=
          Bool.not_eq_true _ ▸ (by simpa using h3)
        rw [hbm]
        simp only [Bool.not_false, if_true]
        constructor
        · intro h; cases h
        · rintro (h | ⟨htake, -⟩)
          · exact absurd h hqroot
          · exact absurd ((bytesMatch_iff _ _).mpr htake) h3

theorem hasPathPermission_iff (st : FSState) (nftContract tokenId : Nat) (path : List Nat) :
    hasPathPermission st nftContract tokenId path = true ↔
      ∃ q ∈ st.tokenPrefixes nftContract tokenId, isPathInPrefix path q = true := by
  simp [hasPathPermission, List.any_eq_true]

/-! ## Lemmas: the write/read state machine -/

theorem writeFile_cases (chain : Chain) (st : FSState) (caller nftContract tokenId : Nat)
    (path cid : List Nat) :
    (writeFile chain st caller nftContract tokenId path cid = .error .emptyCid ↔ cid = []) ∧
    (writeFile chain st caller nftContract tokenId path cid = .error .invalidNftContract ↔
      cid ≠ [] ∧ chain.hasCode nftContract = false) ∧
    (writeFile chain st caller nftContract tokenId path cid = .error .notTokenOwner ↔
      cid ≠ [] ∧ chain.hasCode nftContract = true ∧
        ownerOfNftTokenNoRevert chain nftContract tokenId ≠ caller) ∧
    (writeFile chain st caller nftContract tokenId path cid =
        .error (.tokenWritesRevoked nftContract tokenId) ↔
      cid ≠ [] ∧ chain.hasCode nftContract = true ∧
        ownerOfNftTokenNoRevert chain nftContract tokenId = caller ∧
        st.tokenWriteRevoked nftContract tokenId = true) ∧
    (writeFile chain st caller nftContract tokenId path cid = .error .invalidPath ↔
      cid ≠ [] ∧ chain.hasCode nftContract = true ∧
        ownerOfNftTokenNoRevert chain nftContract tokenId = caller ∧
        st.tokenWriteRevoked nftContract tokenId = false ∧
        normalizeFilePath path = none) ∧
    (writeFile chain st caller nftContract tokenId path cid = .error .unauthorizedPath ↔
      cid ≠ [] ∧ chain.hasCode nftContract = true ∧
        ownerOfNftTokenNoRevert chain nftContract tokenId = caller ∧
        st.tokenWriteRevoked nftContract tokenId = false ∧
        ∃ vp, normalizeFilePath path = some vp ∧
          hasPathPermission st nftContract tokenId vp = false) ∧
    ((∃ st', writeFile chain st caller nftContract tokenId path cid = .ok st') ↔
      cid ≠ [] ∧ chain.hasCode nftContract = true ∧
        ownerOfNftTokenNoRevert chain nftContract tokenId = caller ∧
        st.tokenWriteRevoked nftContract tokenId = false ∧
        ∃ vp, normalizeFilePath path = some vp ∧
          hasPathPermission st nftContract tokenId vp = true) := by
  by_cases h1 : cid = []
  · simp [writeFile, h1]
  · have h1' : ¬(cid.length = 0) := by simpa [List.length_eq_zero] using h1
    by_cases h2 : chain.hasCode nftContract = true
    · by_cases h3 : ownerOfNftTokenNoRevert chain nftContract tokenId = caller
      · by_cases h4 : st.tokenWriteRevoked nftContract tokenId = true
        · simp [writeFile, h1, h1', h2, h3, h4]
        · cases h5 : normalizeFilePath path with
          | none => simp [writeFile, h1, h1', h2, h3, h4, h5]
          | some vp =>
            by_cases h6 : hasPathPermission st nftContract tokenId vp = true
            · simp [writeFile, h1, h1', h2, h3, h4, h5, h6]
            · simp [writeFile, h1, h1', h2, h3, h4, h5, h6]
      · simp [writeFile, h1, h1', h2, h3]
    · simp [writeFile, h1, h1', h2]

theorem canWritePath_cases (chain : Chain) (st : FSState) (nftContract tokenId account : Nat)
    (path : List Nat) :
    (canWritePath chain st nftContract tokenId account path = .ok true ↔
      chain.hasCode nftContract = true ∧ st.tokenWriteRevoked nftContract tokenId = false ∧
        ownerOfNftTokenNoRevert chain nftContract tokenId = account ∧
        ∃ vp, normalizeFilePath path = some vp ∧
          hasPathPermission st nftContract tokenId vp = true) ∧
    (canWritePath chain st nftContract tokenId account path = .error .invalidPath ↔
      chain.hasCode nftContract = true ∧ st.tokenWriteRevoked nftContract tokenId = false ∧
        ownerOfNftTokenNoRevert chain nftContract tokenId = account ∧
        normalizeFilePath path = none) ∧
    (canWritePath chain st nftContract tokenId account path = .ok false ↔
      (chain.hasCode nftContract = false ∨
        (chain.hasCode nftContract = true ∧ st.tokenWriteRevoked nftContract tokenId = true) ∨
        (chain.hasCode nftContract = true ∧ st.tokenWriteRevoked nftContract tokenId = false ∧
          ownerOfNftTokenNoRevert chain nftContract tokenId ≠ account) ∨
        (chain.hasCode nftContract = true ∧ st.tokenWriteRevoked nftContract tokenId = false ∧
          ownerOfNftTokenNoRevert chain nftContract tokenId = account ∧
          ∃ vp, normalizeFilePath path = some vp ∧
            hasPathPermission st nftContract tokenId vp = false))) := by
  by_cases h2 : chain.hasCode nftContract = true
  · by_cases h4 : st.tokenWriteRevoked nftContract tokenId = true
    · simp [canWritePath, h2, h4]
    · by_cases h3 : ownerOfNftTokenNoRevert chain nftContract tokenId = account
      · cases h5 : normalizeFilePath path with
        | none => simp [canWritePath, h2, h3, h4, h5]
        | some vp =>
          by_cases h6 : hasPathPermission st nftContract tokenId vp = true
          · simp [canWritePath, h2, h3, h4, h5, h6]
          · simp [canWritePath, h2, h3, h4, h5, h6]
      · simp [canWritePath, h2, h3, h4]
  · simp [canWritePath, h2]

theorem getFile_invalidPath {st : FSState} {path : List Nat}
    (h : normalizeFilePath path = none) : getFile st path = .error .invalidPath := by
  simp [getFile, h]

theorem fileExists_invalidPath {st : FSState} {path : List Nat}
    (h : normalizeFilePath path = none) : fileExists st path = .error .invalidPath := by
  simp [fileExists, h]

/-! ## Lemmas: administrator gating -/

theorem replaceTokenPrefixes_notOwner {chain : Chain} {st : FSState}
    {caller nftContract tokenId : Nat} {rawList : List (List Nat)} (h : caller ≠ st.owner) :
    replaceTokenPrefixes chain st caller nftContract tokenId rawList = .error .notOwner := by
  simp [replaceTokenPrefixes, h]

theorem setTokenWriteRevoked_notOwner {chain : Chain} {st : FSState}
    {caller nftContract tokenId : Nat} {revoked : Bool} (h : caller ≠ st.owner) :
    setTokenWriteRevoked chain st caller nftContract tokenId revoked = .error .notOwner := by
  simp [setTokenWriteRevoked, h]

theorem transferOwnership_notOwner {st : FSState} {caller newOwner : Nat}
    (h : caller ≠ st.owner) :
    transferOwnership st caller newOwner = .error .notOwner := by
  simp [transferOwnership, h]

theorem runAdmin_stuck {chain : Chain} {st : FSState} {a : AdminAct}
    (h : a.sender ≠ st.owner) : runAdmin chain st a = st := by
  cases a with
  | replacePrefs caller c t l =>
    simp only [AdminAct.sender] at h
    simp [runAdmin, replaceTokenPrefixes_notOwner h]
  | setRevoked caller c t r =>
    simp only [AdminAct.sender] at h
    simp [runAdmin, setTokenWriteRevoked_notOwner h]
  | transferOwner caller newOwner =>
    simp only [AdminAct.sender] at h
    simp [runAdmin, transferOwnership_notOwner h]

theorem foldl_runAdmin_disabled (chain : Chain) :
    ∀ (acts : List AdminAct) (st : FSState), st.owner = 0 → (∀ a ∈ acts, a.sender ≠ 0) →
      List.foldl (runAdmin chain) st acts = st := by
  intro acts
  induction acts with
  | nil => intro st h0 hs; rfl
  | cons a rest ih =>
    intro st h0 hs
    have hstep : runAdmin chain st a = st :=
      runAdmin_stuck (by rw [h0]; exact hs a (by simp))
    rw [List.foldl_cons, hstep, ih st h0 (fun x hx => hs x (by simp [hx]))]

/-! ## Lemmas: prefix replacement and deduplication -/

theorem mem_dedupKeepFirst : ∀ (l : List (List Nat)) (x : List Nat),
    x ∈ dedupKeepFirst l ↔ x ∈ l := by
  have main : ∀ (n : Nat) (l : List (List Nat)), l.length ≤ n →
      ∀ x, x ∈ dedupKeepFirst l ↔ x ∈ l := by
    intro n
    induction n with
    | zero =>
      intro l hl x
      have h0 : l = [] := List.length_eq_zero.mp (Nat.le_zero.mp hl)
      subst h0
      simp [dedupKeepFirst]
    | succ n ih =>
      intro l hl x
      cases l with
      | nil => simp [dedupKeepFirst]
      | cons a rest =>
        rw [dedupKeepFirst]
        have hlen : (rest.filter (fun b => b ≠ a)).length ≤ n := by
          have hf := List.length_filter_le (fun b => decide (b ≠ a)) rest
          simp only [List.length_cons] at hl
          omega
        rw [List.mem_cons, ih _ hlen x, List.mem_filter]
        by_cases hx : x = a <;> simp [hx]
  intro l x
  exact main l.length l le_rfl x

theorem nodup_dedupKeepFirst : ∀ (l : List (List Nat)), (dedupKeepFirst l).Nodup := by
  have main : ∀ (n : Nat) (l : List (List Nat)), l.length ≤ n → (dedupKeepFirst l).Nodup := by
    intro n
    induction n with
    | zero =>
      intro l hl
      have h0 : l = [] := List.length_eq_zero.mp (Nat.le_zero.mp hl)
      subst h0
      simp [dedupKeepFirst]
    | succ n ih =>
      intro l hl
      cases l with
      | nil => simp [dedupKeepFirst]
      | cons a rest =>
        rw [dedupKeepFirst]
        have hlen : (rest.filter (fun b => b ≠ a)).length ≤ n := by
          have hf := List.length_filter_le (fun b => decide (b ≠ a)) rest
          simp only [List.length_cons] at hl
          omega
        refine List.nodup_cons.mpr ⟨?_, ih _ hlen⟩
        intro hmem
        have hm := (mem_dedupKeepFirst _ a).mp hmem
        simp [List.mem_filter] at hm
  intro l
  exact main l.length l le_rfl

theorem containsPrefixHash_iff (acc : List (List Nat)) (v : List Nat) :
    containsPrefixHash acc (hashString v) = true ↔ v ∈ acc := by
  simp [containsPrefixHash, hashString, List.any_eq_true]

theorem buildPrefixList_some : ∀ (rest acc : List (List Nat)),
    (∀ p ∈ rest, (normalizePrefixPath p).isSome = true) →
      buildPrefixList rest acc =
        some (acc ++ dedupKeepFirst
          ((rest.map (fun p => (normalizePrefixPath p).getD [])).filter
            (fun v => v ∉ acc))) := by
  intro rest
  induction rest with
  | nil =>
    intro acc h
    simp [buildPrefixList, dedupKeepFirst]
  | cons p ps ih =>
    intro acc h
    have hp := h p (by simp)
    obtain ⟨vp, hvp⟩ := Option.isSome_iff_exists.mp hp
    have hred : buildPrefixList (p :: ps) acc =
        (if containsPrefixHash acc (hashString vp) = true then buildPrefixList ps acc
         else buildPrefixList ps (acc ++ [vp])) := by
      simp only [buildPrefixList, hvp]
    rw [hred]
    by_cases hin : vp ∈ acc
    · rw [if_pos ((containsPrefixHash_iff acc vp).mpr hin)]
      rw [ih acc (fun q hq => h q (by simp [hq]))]
      simp [hvp, hin]
    · rw [if_neg (by simp [containsPrefixHash_iff, hin])]
      rw [ih (acc ++ [vp]) (fun q hq => h q (by simp [hq]))]
      have hpt : (fun a : List Nat => decide (a ∉ acc ++ [vp])) =
          (fun a : List Nat => decide (a ≠ vp) && decide (a ∉ acc)) := by
        funext a
        rw [← Bool.decide_and, decide_eq_decide]
        simp only [List.mem_append, List.mem_singleton, not_or, Ne]
        tauto
      have hflt : (ps.map (fun q => (normalizePrefixPath q).getD [])).filter
            (fun a => decide (a ∉ acc ++ [vp])) =
          ((ps.map (fun q => (normalizePrefixPath q).getD [])).filter
            (fun a => decide (a ∉ acc))).filter (fun a => decide (a ≠ vp)) := by
        rw [List.filter_filter, hpt]
      rw [hflt]
      have hmap : (List.map (fun q => (normalizePrefixPath q).getD []) (p :: ps)) =
          vp :: List.map (fun q => (normalizePrefixPath q).getD []) ps := by
        simp [hvp]
      rw [hmap]
      have hfc : List.filter (fun v => decide (v ∉ acc))
            (vp :: List.map (fun q => (normalizePrefixPath q).getD []) ps) =
          vp :: List.filter (fun v => decide (v ∉ acc))
            (List.map (fun q => (normalizePrefixPath q).getD []) ps) := by
        simp [hin]
      rw [hfc]
      have hdk : dedupKeepFirst (vp :: List.filter (fun v => decide (v ∉ acc))
            (List.map (fun q => (normalizePrefixPath q).getD []) ps)) =
          vp :: dedupKeepFirst ((List.filter (fun v => decide (v ∉ acc))
            (List.map (fun q => (normalizePrefixPath q).getD []) ps)).filter
              (fun b => b ≠ vp)) := by
        rw [dedupKeepFirst]
      rw [hdk]
      simp

/-! ## Lemmas: the ownership token -/

theorem nftOwnerOf_some {n : NftState} {tokenId tokenOwner : Nat}
    (h : nftOwnerOf n tokenId = some tokenOwner) :
    n.ownerOfTok tokenId = tokenOwner ∧ tokenOwner ≠ 0 := by
  rw [nftOwnerOf] at h
  by_cases h0 : n.ownerOfTok tokenId = 0
  · rw [if_pos h0] at h; cases h
  · rw [if_neg h0] at h
    cases h
    exact ⟨rfl, h0⟩

theorem nftTransferFrom_facts {n : NftState} {caller fromAddr toAddr tokenId : Nat} {n' : NftState}
    (h : nftTransferFrom n caller fromAddr toAddr tokenId = .ok n') :
    n.ownerOfTok tokenId = fromAddr ∧ fromAddr ≠ 0 ∧ toAddr ≠ 0 ∧
      n'.ownerOfTok tokenId = toAddr := by
  rw [nftTransferFrom] at h
  split at h
  · cases h
  · next h0 =>
    split at h
    · cases h
    · next tokenOwner hown =>
      split at h
      · cases h
      · split at h
        · cases h
        · next hfrom =>
          split at h
          · cases h
          · cases h
            rw [not_not] at hfrom
            obtain ⟨ho, hnz⟩ := nftOwnerOf_some hown
            subst hfrom
            exact ⟨ho, ho ▸ hnz, h0, by simp⟩

theorem buildPrefixList_none : ∀ (rest acc : List (List Nat)),
    (∃ p ∈ rest, normalizePrefixPath p = none) → buildPrefixList rest acc = none := by
  intro rest
  induction rest with
  | nil =>
    rintro acc ⟨p, hp, -⟩
    simp at hp
  | cons p ps ih =>
    rintro acc ⟨q, hq, hqn⟩
    cases hnp : normalizePrefixPath p with
    | none => simp [buildPrefixList, hnp]
    | some vp =>
      have hred : buildPrefixList (p :: ps) acc =
          (if containsPrefixHash acc (hashString vp) = true then buildPrefixList ps acc
           else buildPrefixList ps (acc ++ [vp])) := by
        simp only [buildPrefixList, hnp]
      rw [hred]
      have hq' : q ∈ ps := by
        rcases List.mem_cons.mp hq with rfl | h
        · rw [hnp] at hqn; cases hqn
        · exact h
      by_cases hin : containsPrefixHash acc (hashString vp) = true
      · rw [if_pos hin]; exact ih acc ⟨q, hq', hqn⟩
      · rw [if_neg hin]; exact ih (acc ++ [vp]) ⟨q, hq', hqn⟩

/-! ## Claim theorems -/

/-- C1: canonicalization (`_normalizePath` in both FilePath and Prefix
instantiations) succeeds exactly on the claimed grammar — starts with `/`,
no two consecutive `/`, no trailing `/`, every segment character in
`A-Z a-z 0-9 - _`, with `.` additionally legal only in FilePath mode in the
final segment (at most one, not at the segment's start or end), `.` illegal
anywhere in Prefix mode, and the length-1 input `/` accepted only in Prefix
mode; moreover `/agent1` is a valid prefix, `/agent1/files/manifest.json` a
valid file path, and `/agent1/files/manifest..json` and
`/agent1/files/mani@fest.json` are rejected (`none` = `InvalidPath`). -/
theorem C1_canonicalization_grammar :
    (∀ s : List Nat, (normalizeFilePath s).isSome = true ↔ goodPath true s) ∧
    (∀ s : List Nat,
      (normalizePrefixPath s).isSome = true ↔ (s = [slashB] ∨ goodPath false s)) ∧
    (normalizePrefixPath (strBytes "/agent1")).isSome = true ∧
    (normalizeFilePath (strBytes "/agent1/files/manifest.json")).isSome = true ∧
    normalizeFilePath (strBytes "/agent1/files/manifest..json") = none ∧
    normalizeFilePath (strBytes "/agent1/files/mani@fest.json") = none ∧
    (normalizeFilePath (strBytes "/")).isSome = false ∧
    (normalizePrefixPath (strBytes "/")).isSome = true :=
  ⟨normalizeFilePath_isSome_iff, normalizePrefixPath_isSome_iff,
    by decide, by decide, by decide, by decide, by decide, by decide⟩

/-- C2: for canonical inputs, `_isPathInPrefix` returns true exactly when
the prefix is the bare root `/`, or the path's bytes start with the
prefix's bytes and either they are equal or the next path byte is `/`;
`/agent1` does not match `/agent10/x`, `/shared/data` matches
`/shared/data/sub/file1` but not `/shared/database/file1`; and a path is
authorized (`_hasPathPermission`) iff it matches at least one stored
prefix. -/
theorem C2_subtree_matcher :
    (∀ p q : List Nat, (normalizeFilePath p).isSome = true →
      (normalizePrefixPath q).isSome = true →
      (isPathInPrefix p q = true ↔
        (q = [slashB] ∨
          (p.take q.length = q ∧
            (p = q ∨ (p.drop q.length).head? = some slashB))))) ∧
    isPathInPrefix (strBytes "/agent10/x") (strBytes "/agent1") = false ∧
    isPathInPrefix (strBytes "/shared/data/sub/file1") (strBytes "/shared/data") = true ∧
    isPathInPrefix (strBytes "/shared/database/file1") (strBytes "/shared/data") = false ∧
    (∀ (st : FSState) (nftContract tokenId : Nat) (path : List Nat),
      hasPathPermission st nftContract tokenId path = true ↔
        ∃ q ∈ st.tokenPrefixes nftContract tokenId, isPathInPrefix path q = true) :=
  ⟨fun _ _ hp hq => isPathInPrefix_iff hp hq, by decide, by decide, by decide,
    hasPathPermission_iff⟩

/-- Witness for C2 at the concrete path `/a/b` and prefix `/a`. -/
theorem C2_subtree_matcher_witness :
    isPathInPrefix (strBytes "/a/b") (strBytes "/a") = true :=
  (C2_subtree_matcher.1 (strBytes "/a/b") (strBytes "/a") (by decide) (by decide)).mpr
    (Or.inr ⟨by decide, Or.inr (by decide)⟩)

/-- C5: on every Unicode string and in both modes, the client-side
validator (`validatePathValue`, reading UTF-16 code units) accepts exactly
when the on-chain normalizer (`_normalizePath`, reading UTF-8 bytes)
accepts. -/
theorem C5_client_chain_agreement :
    (∀ (s : List Char) (allowDot allowRoot : Bool),
      validatePathValue (encodeWith utf16Units s) allowDot allowRoot =
        (normalizePath (encodeWith utf8Bytes s) allowDot allowRoot).isSome) ∧
    (∀ s : List Char, validateFilePath (encodeWith utf16Units s) =
      (normalizeFilePath (encodeWith utf8Bytes s)).isSome) ∧
    (∀ s : List Char, validatePrefixPath (encodeWith utf16Units s) =
      (normalizePrefixPath (encodeWith utf8Bytes s)).isSome) := by
  have main : ∀ (s : List Char) (allowDot allowRoot : Bool),
      validatePathValue (encodeWith utf16Units s) allowDot allowRoot =
        (normalizePath (encodeWith utf8Bytes s) allowDot allowRoot).isSome := by
    intro s allowDot allowRoot
    by_cases hall : ∀ c ∈ s, c.toNat < 128
    · rw [encodeWith_ascii (fun c hc => by
          simp [utf16Units, show c.toNat < 65536 by omega]) s hall,
        encodeWith_ascii (fun c hc => by simp [utf8Bytes, hc]) s hall,
        validatePathValue_eq_isSome]
    · push_neg at hall
      have h16 := encodeWith_nonascii (fun c hc => utf16Units_nonascii hc) hall
      have h8 := encodeWith_nonascii (fun c hc => utf8Bytes_nonascii hc) hall
      rw [validatePathValue_eq_isSome, normalizePath_reject h16, normalizePath_reject h8]
  exact ⟨main, fun s => main s true false, fun s => main s false true⟩

/-- C9: canonicalization is a validating copy — whenever `_normalizePath`
succeeds, its output is byte-for-byte the input, and hence canonicalization
is idempotent. -/
theorem C9_validating_copy :
    (∀ (s r : List Nat) (allowDot allowRoot : Bool),
      normalizePath s allowDot allowRoot = some r → r = s) ∧
    (∀ (s r : List Nat) (allowDot allowRoot : Bool),
      normalizePath s allowDot allowRoot = some r →
        normalizePath r allowDot allowRoot = some r) := by
  constructor
  · intro s r aD aR h
    exact normalizePath_eq_self h
  · intro s r aD aR h
    have he := normalizePath_eq_self h
    subst he
    exact h

/-- Witness for C9 at the concrete file path `/a`. -/
theorem C9_validating_copy_witness :
    strBytes "/a" = strBytes "/a" ∧ normalizePath (strBytes "/a") true false =
      some (strBytes "/a") :=
  ⟨C9_validating_copy.1 (strBytes "/a") (strBytes "/a") true false (by decide),
    C9_validating_copy.2 (strBytes "/a") (strBytes "/a") true false (by decide)⟩

/-- C3: `writeFile` evaluates its preconditions in the order empty-cid,
contract-deployed, token-ownership, revocation, path grammar, prefix
authorization, and returns the error of the first failing step (success
exactly when all hold); in particular an empty cid yields `EmptyCid`
whatever else is wrong, and a non-owner caller on a revoked token gets
`NotTokenOwner`, not `TokenWritesRevoked`. -/
theorem C3_write_error_order :
    ∀ (chain : Chain) (st : FSState) (caller nftContract tokenId : Nat) (path cid : List Nat),
      (writeFile chain st caller nftContract tokenId path cid = .error .emptyCid ↔ cid = []) ∧
      (writeFile chain st caller nftContract tokenId path cid = .error .invalidNftContract ↔
        cid ≠ [] ∧ chain.hasCode nftContract = false) ∧
      (writeFile chain st caller nftContract tokenId path cid = .error .notTokenOwner ↔
        cid ≠ [] ∧ chain.hasCode nftContract = true ∧
          ownerOfNftTokenNoRevert chain nftContract tokenId ≠ caller) ∧
      (writeFile chain st caller nftContract tokenId path cid =
          .error (.tokenWritesRevoked nftContract tokenId) ↔
        cid ≠ [] ∧ chain.hasCode nftContract = true ∧
          ownerOfNftTokenNoRevert chain nftContract tokenId = caller ∧
          st.tokenWriteRevoked nftContract tokenId = true) ∧
      (writeFile chain st caller nftContract tokenId path cid = .error .invalidPath ↔
        cid ≠ [] ∧ chain.hasCode nftContract = true ∧
          ownerOfNftTokenNoRevert chain nftContract tokenId = caller ∧
          st.tokenWriteRevoked nftContract tokenId = false ∧
          normalizeFilePath path = none) ∧
      (writeFile chain st caller nftContract tokenId path cid = .error .unauthorizedPath ↔
        cid ≠ [] ∧ chain.hasCode nftContract = true ∧
          ownerOfNftTokenNoRevert chain nftContract tokenId = caller ∧
          st.tokenWriteRevoked nftContract tokenId = false ∧
          ∃ vp, normalizeFilePath path = some vp ∧
            hasPathPermission st nftContract tokenId vp = false) ∧
      ((∃ st', writeFile chain st caller nftContract tokenId path cid = .ok st') ↔
        cid ≠ [] ∧ chain.hasCode nftContract = true ∧
          ownerOfNftTokenNoRevert chain nftContract tokenId = caller ∧
          st.tokenWriteRevoked nftContract tokenId = false ∧
          ∃ vp, normalizeFilePath path = some vp ∧
            hasPathPermission st nftContract tokenId vp = true) :=
  fun chain st caller nftContract tokenId path cid =>
    writeFile_cases chain st caller nftContract tokenId path cid

/-- Witness for C3: an empty cid yields `EmptyCid` even though the
contract address 2 holds no code. -/
theorem C3_write_error_order_witness :
    writeFile chain0 st0 5 2 1 (strBytes "/agent1/x") [] = .error .emptyCid :=
  (C3_write_error_order chain0 st0 5 2 1 (strBytes "/agent1/x") []).1.mpr rfl

/-- C4: `canWritePath` is a faithful dry run of `writeFile`'s steps 2-6: a
`true` result means the same account's `writeFile` with any non-empty cid
succeeds against the same state, and a `false` result means it fails. -/
theorem C4_canWrite_agrees_write :
    ∀ (chain : Chain) (st : FSState) (nftContract tokenId account : Nat) (path cid : List Nat),
      cid ≠ [] →
      ((canWritePath chain st nftContract tokenId account path = .ok true →
          ∃ st', writeFile chain st account nftContract tokenId path cid = .ok st') ∧
        (canWritePath chain st nftContract tokenId account path = .ok false →
          ∀ st', writeFile chain st account nftContract tokenId path cid ≠ .ok st')) := by
  intro chain st c t account path cid hcid
  have hw := writeFile_cases chain st account c t path cid
  have hc := canWritePath_cases chain st c t account path
  constructor
  · intro h
    obtain ⟨h2, h4, h3, vp, h5, h6⟩ := hc.1.mp h
    exact hw.2.2.2.2.2.2.mpr ⟨hcid, h2, h3, h4, vp, h5, h6⟩
  · intro h st' hok
    obtain ⟨-, h2, h3, h4, vp, h5, h6⟩ := hw.2.2.2.2.2.2.mp ⟨st', hok⟩
    rcases hc.2.2.mp h with hbad | hbad | hbad | hbad
    · simp [h2] at hbad
    · simp [h4] at hbad
    · exact hbad.2.2 h3
    · obtain ⟨-, -, -, vp', h5', h6'⟩ := hbad
      rw [h5] at h5'
      injection h5' with hvpe
      subst hvpe
      simp [h6] at h6'

/-- Witness for C4 at a state where the dry run returns `true`. -/
theorem C4_canWrite_agrees_write_witness :
    ∃ st', writeFile chain0 st0 5 1 1 (strBytes "/agent1/x") (strBytes "v") = .ok st' :=
  (C4_canWrite_agrees_write chain0 st0 1 1 5 (strBytes "/agent1/x") (strBytes "v")
    (by decide)).1 rfl

/-- C6: `replaceTokenPrefixes` canonicalizes every entry; when all succeed
it atomically replaces the stored set with the canonical entries
deduplicated by value in first-occurrence order (leaving no duplicates and
touching no other key), and when any entry fails it reverts with
`InvalidPath` (so the stored set is unchanged). -/
theorem C6_replace_prefixes :
    ∀ (chain : Chain) (st : FSState) (caller nftContract tokenId : Nat)
      (rawList : List (List Nat)),
      caller = st.owner → chain.hasCode nftContract = true →
      ((∀ p ∈ rawList, (normalizePrefixPath p).isSome = true) →
        ∃ st', replaceTokenPrefixes chain st caller nftContract tokenId rawList = .ok st' ∧
          st'.tokenPrefixes nftContract tokenId =
            dedupKeepFirst (rawList.map (fun p => (normalizePrefixPath p).getD [])) ∧
          (st'.tokenPrefixes nftContract tokenId).Nodup ∧
          (∀ c t : Nat, ¬(c = nftContract ∧ t = tokenId) →
            st'.tokenPrefixes c t = st.tokenPrefixes c t)) ∧
      ((∃ p ∈ rawList, normalizePrefixPath p = none) →
        replaceTokenPrefixes chain st caller nftContract tokenId rawList =
          .error .invalidPath) := by
  intro chain st caller c t rawList hcall hcode
  constructor
  · intro hall
    have hb := buildPrefixList_some rawList [] hall
    have hfilter : (rawList.map (fun p => (normalizePrefixPath p).getD [])).filter
        (fun v => decide (v ∉ ([] : List (List Nat)))) =
        rawList.map (fun p => (normalizePrefixPath p).getD []) := by
      simp
    rw [hfilter, List.nil_append] at hb
    refine ⟨{ st with tokenPrefixes := fun c' t' =>
        if c' = c ∧ t' = t then
          dedupKeepFirst (rawList.map (fun p => (normalizePrefixPath p).getD []))
        else st.tokenPrefixes c' t' }, ?_, ?_, ?_, ?_⟩
    · rw [replaceTokenPrefixes, if_neg (by simp [hcall]), if_neg (by simp [hcode]), hb]
    · simp
    · show (if c = c ∧ t = t then
          dedupKeepFirst (rawList.map (fun p => (normalizePrefixPath p).getD []))
        else st.tokenPrefixes c t).Nodup
      rw [if_pos ⟨rfl, rfl⟩]
      exact nodup_dedupKeepFirst _
    · intro c' t' hne
      simp [hne]
  · intro hbad
    rw [replaceTokenPrefixes, if_neg (by simp [hcall]), if_neg (by simp [hcode]),
      buildPrefixList_none rawList [] hbad]

/-- Witness for C6: replacing with `[/a, /b, /a]` stores `[/a, /b]`. -/
theorem C6_replace_prefixes_witness :
    ∃ st', replaceTokenPrefixes chain0 st0 7 1 1
        [strBytes "/a", strBytes "/b", strBytes "/a"] = .ok st' := by
  obtain ⟨st', h, -⟩ := (C6_replace_prefixes chain0 st0 7 1 1
    [strBytes "/a", strBytes "/b", strBytes "/a"] rfl (by decide)).1 (by decide)
  exact ⟨st', h⟩

/-- C7: write authority follows exact current token ownership: with the
oracle backed by the `PermissionNFT` contract, any caller other than the
resolved owner fails with `NotTokenOwner` whatever the approval state of
the token; an unresolvable oracle makes every (nonzero) caller fail with
`NotTokenOwner` (the zero address cannot originate transactions on the
EVM); and after `transferFrom` moves the token from A to B, A's identical
write fails with `NotTokenOwner` while B's succeeds when the remaining
preconditions hold, with no migration step. -/
theorem C7_ownership_authority :
    (∀ (chain : Chain) (st : FSState) (nftSt : NftState)
        (caller nftContract tokenId : Nat) (path cid : List Nat),
      cid ≠ [] → chain.hasCode nftContract = true →
      chain.ownerOfResult nftContract = nftBackedOracle nftSt →
      nftSt.ownerOfTok tokenId ≠ 0 →
      caller ≠ nftSt.ownerOfTok tokenId →
      writeFile chain st caller nftContract tokenId path cid = .error .notTokenOwner) ∧
    (∀ (chain : Chain) (st : FSState) (caller nftContract tokenId : Nat) (path cid : List Nat),
      cid ≠ [] → chain.hasCode nftContract = true →
      chain.ownerOfResult nftContract tokenId = none →
      caller ≠ 0 →
      writeFile chain st caller nftContract tokenId path cid = .error .notTokenOwner) ∧
    (∀ (chain' : Chain) (st : FSState) (nftSt nftSt' : NftState)
        (spender addrA addrB nftContract tokenId : Nat) (path cid : List Nat),
      cid ≠ [] → chain'.hasCode nftContract = true →
      chain'.ownerOfResult nftContract = nftBackedOracle nftSt' →
      nftTransferFrom nftSt spender addrA addrB tokenId = .ok nftSt' →
      addrA ≠ addrB →
      (writeFile chain' st addrA nftContract tokenId path cid = .error .notTokenOwner ∧
        (st.tokenWriteRevoked nftContract tokenId = false →
          ∀ vp, normalizeFilePath path = some vp →
            hasPathPermission st nftContract tokenId vp = true →
            ∃ st', writeFile chain' st addrB nftContract tokenId path cid = .ok st'))) := by
  refine ⟨?_, ?_, ?_⟩
  · intro chain st nftSt caller c t path cid hcid hcode horacle hnz hne
    have hres : ownerOfNftTokenNoRevert chain c t = nftSt.ownerOfTok t := by
      rw [ownerOfNftTokenNoRevert, horacle, nftBackedOracle, nftOwnerOf, if_neg hnz]
      rfl
    exact (writeFile_cases chain st caller c t path cid).2.2.1.mpr
      ⟨hcid, hcode, by rw [hres]; exact fun h => hne h.symm⟩
  · intro chain st caller c t path cid hcid hcode hnone hnz
    have hres : ownerOfNftTokenNoRevert chain c t = 0 := by
      rw [ownerOfNftTokenNoRevert, hnone]
      rfl
    exact (writeFile_cases chain st caller c t path cid).2.2.1.mpr
      ⟨hcid, hcode, by rw [hres]; exact fun h => hnz h.symm⟩
  · intro chain' st nftSt nftSt' spender addrA addrB c t path cid hcid hcode horacle htr hAB
    obtain ⟨-, -, hBnz, hB⟩ := nftTransferFrom_facts htr
    have hres : ownerOfNftTokenNoRevert chain' c t = addrB := by
      rw [ownerOfNftTokenNoRevert, horacle, nftBackedOracle, nftOwnerOf, hB, if_neg hBnz]
      rfl
    constructor
    · exact (writeFile_cases chain' st addrA c t path cid).2.2.1.mpr
        ⟨hcid, hcode, by rw [hres]; exact fun h => hAB h.symm⟩
    · intro hrev vp hvp hperm
      exact (writeFile_cases chain' st addrB c t path cid).2.2.2.2.2.2.mpr
        ⟨hcid, hcode, hres, hrev, vp, hvp, hperm⟩

/-- Witness for C7: after transferring token 1 from 5 to 6, a write by 5
fails with `NotTokenOwner` and the same write by 6 succeeds. -/
theorem C7_ownership_authority_witness :
    writeFile (chainNft nft1) st0 5 1 1 (strBytes "/agent1/x") (strBytes "v") =
        .error .notTokenOwner ∧
      ∃ st', writeFile (chainNft nft1) st0 6 1 1 (strBytes "/agent1/x") (strBytes "v") =
        .ok st' := by
  have h := C7_ownership_authority.2.2 (chainNft nft1) st0 nft0 nft1 5 5 6 1 1
    (strBytes "/agent1/x") (strBytes "v") (by decide) (by decide) rfl rfl (by decide)
  exact ⟨h.1, h.2 rfl (strBytes "/agent1/x") (by decide) (by decide)⟩

/-- C8: once the administrator owner is the zero sentinel, every
`replaceTokenPrefixes`, `setTokenWriteRevoked`, and `transferOwnership`
call from a nonzero sender fails with `NotOwner`, and any sequence of such
calls leaves the storage unchanged with the owner still the sentinel. -/
theorem C8_admin_disable_oneway :
    ∀ (chain : Chain) (st : FSState), st.owner = 0 →
      (∀ (caller nftContract tokenId : Nat) (rawList : List (List Nat)), caller ≠ 0 →
        replaceTokenPrefixes chain st caller nftContract tokenId rawList =
          .error .notOwner) ∧
      (∀ (caller nftContract tokenId : Nat) (revoked : Bool), caller ≠ 0 →
        setTokenWriteRevoked chain st caller nftContract tokenId revoked =
          .error .notOwner) ∧
      (∀ caller newOwner : Nat, caller ≠ 0 →
        transferOwnership st caller newOwner = .error .notOwner) ∧
      (∀ acts : List AdminAct, (∀ a ∈ acts, a.sender ≠ 0) →
        List.foldl (runAdmin chain) st acts = st ∧
          (List.foldl (runAdmin chain) st acts).owner = 0) := by
  intro chain st h0
  refine ⟨?_, ?_, ?_, ?_⟩
  · intro caller c t l hc
    exact replaceTokenPrefixes_notOwner (by rw [h0]; exact hc)
  · intro caller c t r hc
    exact setTokenWriteRevoked_notOwner (by rw [h0]; exact hc)
  · intro caller newOwner hc
    exact transferOwnership_notOwner (by rw [h0]; exact hc)
  · intro acts hacts
    have hfix := foldl_runAdmin_disabled chain acts st h0 hacts
    exact ⟨hfix, by rw [hfix]; exact h0⟩

/-- Witness for C8 on the disabled state, caller 7. -/
theorem C8_admin_disable_oneway_witness :
    replaceTokenPrefixes chain0 stDisabled 7 1 1 [] = .error .notOwner :=
  (C8_admin_disable_oneway chain0 stDisabled rfl).1 7 1 1 [] (by decide)

/-- C10 counterexample: with an ungrammatical path and an undeployed
contract address, `canWritePath` returns `false` instead of failing with
`InvalidPath`, contradicting the claim that it validates the path
unconditionally. -/
theorem C10_counterexample :
    normalizeFilePath (strBytes "//") = none ∧
    canWritePath chain0 st0 2 1 5 (strBytes "//") = .ok false :=
  ⟨by decide, rfl⟩

/-- C10 (amended): `getFile` and `fileExists` fail with `InvalidPath` on
every ungrammatical path; `canWritePath` validates the path only after the
contract-deployed, not-revoked, and owner checks pass — it then fails with
`InvalidPath` on an ungrammatical path, but with an undeployed contract it
returns `false` without validating. -/
theorem C10_read_validation :
    (∀ (st : FSState) (path : List Nat), normalizeFilePath path = none →
      getFile st path = .error .invalidPath ∧ fileExists st path = .error .invalidPath) ∧
    (∀ (chain : Chain) (st : FSState) (nftContract tokenId account : Nat) (path : List Nat),
      normalizeFilePath path = none →
      chain.hasCode nftContract = true →
      st.tokenWriteRevoked nftContract tokenId = false →
      ownerOfNftTokenNoRevert chain nftContract tokenId = account →
      canWritePath chain st nftContract tokenId account path = .error .invalidPath) ∧
    (∀ (chain : Chain) (st : FSState) (nftContract tokenId account : Nat) (path : List Nat),
      chain.hasCode nftContract = false →
      canWritePath chain st nftContract tokenId account path = .ok false) := by
  refine ⟨?_, ?_, ?_⟩
  · intro st path h
    exact ⟨getFile_invalidPath h, fileExists_invalidPath h⟩
  · intro chain st c t account path hnorm hcode hrev hown
    exact (canWritePath_cases chain st c t account path).2.1.mpr ⟨hcode, hrev, hown, hnorm⟩
  · intro chain st c t account path hcode
    simp [canWritePath, hcode]

/-- Witness for C10 at the ungrammatical path `//`. -/
theorem C10_read_validation_witness :
    getFile st0 (strBytes "//") = .error .invalidPath ∧
      fileExists st0 (strBytes "//") = .error .invalidPath :=
  C10_read_validation.1 st0 (strBytes "//") (by decide)

end PinataFS
